import Mathlib

/-!
# IntensityImage: a column-major matrix of doubles

A shallow embedding of `src/intensityimage/intensityimage.cpp`.

* Values of type `size_t` are natural numbers; every `size_t` product or sum the
  source computes is reduced modulo `SIZE_MODULUS = 2 ^ 64`.
* Free store: a `Heap α` is a list of slots, an address is a slot number.  A slot
  holds `some buf` while the array allocated there is live and `none` once it has
  been released.  Addresses are never handed out twice.
* A pointer `double *` is a `Ptr`: `none` is `nullptr`, `some p` is the address
  of the first element of the array in slot `p`.
* Undefined behaviour (reading or writing outside a live array, dereferencing
  `nullptr`, releasing what is not live) is an explicit failure of the model:
  `none`, or `Error.undefined_behaviour` for the functions that can also throw.
* The element type `double` is a type parameter `α`; the statistics take it to be
  a linearly ordered field (exact arithmetic), and `std::sqrt` is a parameter.
* A member function that changes the object or the store takes both and returns
  both; `const` members only take them.
* Loops are recursive functions on the number of iterations left.

The file has the definitions first (the embedding; the predicates used to state
properties: `Valid`, `values`, `IsCopyOf`; programs over several objects in one
store: `World`, `Op`, `World.step`, `World.run`; sample data), then the theorems.
-/

namespace Core

/-- The number of values of `size_t`. -/
abbrev SIZE_MODULUS : Nat := 2 ^ 64

/-- A `double *`: `none` is `nullptr`. -/
abbrev Ptr := Option Nat

/-- The free store. -/
abbrev Heap (α : Type) := List (Option (List α))

/-- What a call that may throw can end with, besides returning. -/
inductive Error where
  | out_of_range
  | undefined_behaviour
deriving DecidableEq, Repr

namespace Heap

variable {α : Type}

/-- The live array a pointer points to, if any. -/
def buffer (mem : Heap α) : Ptr → Option (List α)
  | none => none
  | some p => mem.getD p none

/-- The rvalue `ptr[i]`. -/
def read (mem : Heap α) (ptr : Ptr) (i : Nat) : Option α :=
  match mem.buffer ptr, ptr with
  | some buf, some _ => buf[i]?
  | _, _ => none

/-- The assignment `ptr[i] = v`. -/
def write (mem : Heap α) (ptr : Ptr) (i : Nat) (v : α) : Option (Heap α) :=
  match mem.buffer ptr, ptr with
  | some buf, some p => if i < buf.length then some (mem.set p (some (buf.set i v))) else none
  | _, _ => none

/-- The expression `new double[n]`: a fresh address and the store that has an
array of `n` elements there (their initial values are irrelevant, every caller
overwrites all of them).  Allocation is assumed to succeed. -/
def alloc [Inhabited α] (mem : Heap α) (n : Nat) : Nat × Heap α :=
  (mem.length, mem ++ [some (List.replicate n default)])

/-- The statement `delete ptr` for a non-null `ptr`: the array is released.
(The source releases with `delete`, not `delete[]`; for `double` this frees the
array, which is what is modelled.) -/
def release (mem : Heap α) (ptr : Ptr) : Option (Heap α) :=
  match mem.buffer ptr, ptr with
  | some _, some p => some (mem.set p none)
  | _, _ => none

end Heap

/-- The class `Core::Internal::IntensityImagePrivate`. -/
structure IntensityImagePrivate where
  width : Nat
  height : Nat
  data : Ptr
deriving DecidableEq, Repr

namespace IntensityImagePrivate

variable {α : Type}

/-- The constructor `IntensityImagePrivate()`. -/
def ctor : IntensityImagePrivate :=
  { width := 0, height := 0, data := none }

/-- The loop `for (i = ...; i < numOfElem; ++i) data[i] = value;` with `k`
iterations left, at counter `i`. -/
def fillLoop (data : Ptr) (value : α) : Nat → Nat → Heap α → Option (Heap α)
  | 0, _, mem => some mem
  | k + 1, i, mem =>
    match mem.write data i value with
    | some mem1 => fillLoop data value k (i + 1) mem1
    | none => none

/-- The loop `for (i = ...; i < numOfElem; ++i) data[i] = d[i];` with `k`
iterations left, at counter `i`. -/
def copyLoop (data d : Ptr) : Nat → Nat → Heap α → Option (Heap α)
  | 0, _, mem => some mem
  | k + 1, i, mem =>
    match mem.read d i with
    | some x =>
      match mem.write data i x with
      | some mem1 => copyLoop data d k (i + 1) mem1
      | none => none
    | none => none

/-- The member `void copy(size_t w, size_t h, double value)`. -/
def copy_value [Inhabited α] (self : IntensityImagePrivate) (w h : Nat) (value : α)
    (mem : Heap α) : Option (IntensityImagePrivate × Heap α) :=
  if w = 0 ∨ h = 0 then
    some ({ width := 0, height := 0, data := none }, mem)
  else
    let numOfElem := (w * h) % SIZE_MODULUS
    if self.data ≠ none ∧ self.width = w ∧ self.height = h then
      match fillLoop self.data value numOfElem 0 mem with
      | some mem1 => some (self, mem1)
      | none => none
    else
      match (if self.data ≠ none then mem.release self.data else some mem) with
      | some mem1 =>
        match fillLoop (some (mem1.alloc numOfElem).1) value numOfElem 0 (mem1.alloc numOfElem).2 with
        | some mem2 => some ({ width := w, height := h, data := some (mem1.alloc numOfElem).1 }, mem2)
        | none => none
      | none => none

/-- The member `void copy(size_t w, size_t h, const double *d)`. -/
def copy_data [Inhabited α] (self : IntensityImagePrivate) (w h : Nat) (d : Ptr)
    (mem : Heap α) : Option (IntensityImagePrivate × Heap α) :=
  if w = 0 ∨ h = 0 ∨ d = none then
    some ({ width := 0, height := 0, data := none }, mem)
  else
    let numOfElem := (w * h) % SIZE_MODULUS
    if self.data ≠ none ∧ self.width = w ∧ self.height = h then
      match copyLoop self.data d numOfElem 0 mem with
      | some mem1 => some (self, mem1)
      | none => none
    else
      match (if self.data ≠ none then mem.release self.data else some mem) with
      | some mem1 =>
        match copyLoop (some (mem1.alloc numOfElem).1) d numOfElem 0 (mem1.alloc numOfElem).2 with
        | some mem2 => some ({ width := w, height := h, data := some (mem1.alloc numOfElem).1 }, mem2)
        | none => none
      | none => none

end IntensityImagePrivate

/-- The class `Core::IntensityImage`: it owns one `IntensityImagePrivate`. -/
structure IntensityImage where
  d : IntensityImagePrivate
deriving DecidableEq, Repr

namespace IntensityImage

variable {α : Type}

/-- The constructor `IntensityImage()`. -/
def create : IntensityImage :=
  { d := IntensityImagePrivate.ctor }

/-- The constructor `IntensityImage(size_t width, size_t height, double value)`. -/
def create_value [Inhabited α] (width height : Nat) (value : α) (mem : Heap α) :
    Option (IntensityImage × Heap α) :=
  match IntensityImagePrivate.ctor.copy_value width height value mem with
  | some (d, mem1) => some ({ d := d }, mem1)
  | none => none

/-- The constructor `IntensityImage(size_t width, size_t height, const double *data)`. -/
def create_data [Inhabited α] (width height : Nat) (data : Ptr) (mem : Heap α) :
    Option (IntensityImage × Heap α) :=
  match IntensityImagePrivate.ctor.copy_data width height data mem with
  | some (d, mem1) => some ({ d := d }, mem1)
  | none => none

/-- The constructor `IntensityImage(size_t width, size_t height, double *data)`,
which adopts the array. -/
def create_adopt (width height : Nat) (data : Ptr) : IntensityImage :=
  if width = 0 ∨ height = 0 ∨ data = none then
    { d := IntensityImagePrivate.ctor }
  else
    { d := { width := width, height := height, data := data } }

/-- The member `bool empty() const`. -/
def empty (self : IntensityImage) : Bool :=
  self.d.data == none

/-- The member `size_t width() const`. -/
def width (self : IntensityImage) : Nat :=
  self.d.width

/-- The member `size_t height() const`. -/
def height (self : IntensityImage) : Nat :=
  self.d.height

/-- The member `size_t rows() const`. -/
def rows (self : IntensityImage) : Nat :=
  self.d.height

/-- The member `size_t cols() const`. -/
def cols (self : IntensityImage) : Nat :=
  self.d.width

/-- The member `size_t elems() const`. -/
def elems (self : IntensityImage) : Nat :=
  (self.d.width * self.d.height) % SIZE_MODULUS

/-- The members `data()`. -/
def data (self : IntensityImage) : Ptr :=
  self.d.data

/-- The copy constructor `IntensityImage(const IntensityImage &rhs)`. -/
def create_copy [Inhabited α] (rhs : IntensityImage) (mem : Heap α) :
    Option (IntensityImage × Heap α) :=
  match IntensityImagePrivate.ctor.copy_data rhs.width rhs.height rhs.data mem with
  | some (d, mem1) => some ({ d := d }, mem1)
  | none => none

/-- The copy assignment `operator =(const IntensityImage &rhs)`; the result is the
new state of `*this`. -/
def assign_copy [Inhabited α] (self rhs : IntensityImage) (mem : Heap α) :
    Option (IntensityImage × Heap α) :=
  match self.d.copy_data rhs.width rhs.height rhs.data mem with
  | some (d, mem1) => some ({ d := d }, mem1)
  | none => none

/-- The static member `swap(lhs, rhs)`: the two `d` pointers are exchanged.  The
result is the new state of `lhs` and of `rhs`. -/
def swap (lhs rhs : IntensityImage) : IntensityImage × IntensityImage :=
  ({ d := rhs.d }, { d := lhs.d })

/-- The move constructor `IntensityImage(IntensityImage &&rhs)`; the result is the
new object and the new state of `rhs`. -/
def create_move (rhs : IntensityImage) : IntensityImage × IntensityImage :=
  swap { d := IntensityImagePrivate.ctor } rhs

/-- The move assignment `operator =(IntensityImage &&rhs)`; the result is the new
state of `*this` and of `rhs`. -/
def assign_move (self rhs : IntensityImage) : IntensityImage × IntensityImage :=
  swap self rhs

/-- A reference `double &`: element `index` of the array at `addr`. -/
structure Ref where
  addr : Nat
  index : Nat
deriving DecidableEq, Repr

/-- The lvalue `data[index]`. -/
def element (mem : Heap α) (data : Ptr) (index : Nat) : Except Error Ref :=
  match mem.buffer data, data with
  | some buf, some p =>
    if index < buf.length then .ok { addr := p, index := index } else .error .undefined_behaviour
  | _, _ => .error .undefined_behaviour

/-- The member `double &operator ()(size_t row, size_t col)`. -/
def call (self : IntensityImage) (row col : Nat) (mem : Heap α) : Except Error Ref :=
  if row ≥ self.d.height ∨ col ≥ self.d.width then
    .error .out_of_range
  else
    element mem self.d.data ((row + col * self.d.height) % SIZE_MODULUS)

/-- The member `const double &operator ()(size_t row, size_t col) const`. -/
def call_const (self : IntensityImage) (row col : Nat) (mem : Heap α) : Except Error Ref :=
  if row ≥ self.d.height ∨ col ≥ self.d.width then
    .error .out_of_range
  else
    element mem self.d.data ((row + col * self.d.height) % SIZE_MODULUS)

/-- The member `double getValueAt(size_t row, size_t col) const`. -/
def getValueAt (self : IntensityImage) (row col : Nat) (mem : Heap α) : Except Error α :=
  match self.call_const row col mem with
  | .ok r =>
    match mem.read (some r.addr) r.index with
    | some x => .ok x
    | none => .error .undefined_behaviour
  | .error e => .error e

/-- The member `void setValueAt(size_t row, size_t col, double value)`.  The
result is how the call ends, and the object and the store at that point. -/
def setValueAt (self : IntensityImage) (row col : Nat) (value : α) (mem : Heap α) :
    Except Error Unit × IntensityImage × Heap α :=
  if row ≥ self.d.height ∨ col ≥ self.d.width then
    (.error .out_of_range, self, mem)
  else
    match mem.write self.d.data ((row + col * self.d.height) % SIZE_MODULUS) value with
    | some mem1 => (.ok (), self, mem1)
    | none => (.error .undefined_behaviour, self, mem)

section Statistics

variable {α : Type} [LinearOrderedField α]

/-- The loop `for (i = ...; i < numOfElem; ++i) result += data[i];` with `k`
iterations left, at counter `i`. -/
def sumLoop (mem : Heap α) (data : Ptr) : Nat → Nat → α → Option α
  | 0, _, result => some result
  | k + 1, i, result =>
    match mem.read data i with
    | some x => sumLoop mem data k (i + 1) (result + x)
    | none => none

/-- The member `double sum() const`. -/
def sum (self : IntensityImage) (mem : Heap α) : Option α :=
  sumLoop mem self.d.data ((self.d.width * self.d.height) % SIZE_MODULUS) 0 0

/-- The member `double mean() const`. -/
def mean (self : IntensityImage) (mem : Heap α) : Option α :=
  if self.elems = 0 then
    some 0
  else
    match self.sum mem with
    | some sumOfElems => some (sumOfElems / (self.elems : α))
    | none => none

/-- The loop `for (i = ...; i < numOfElems; ++i) varTemp += std::pow(data[i] - meanTemp, 2);`
with `k` iterations left, at counter `i`. -/
def varLoop (mem : Heap α) (data : Ptr) (meanTemp : α) : Nat → Nat → α → Option α
  | 0, _, varTemp => some varTemp
  | k + 1, i, varTemp =>
    match mem.read data i with
    | some x => varLoop mem data meanTemp k (i + 1) (varTemp + (x - meanTemp) ^ 2)
    | none => none

/-- The member `void distribution(double &meanValue, double &variance) const`; the
result is the pair of values stored in `meanValue` and `variance`. -/
def distribution (self : IntensityImage) (mem : Heap α) : Option (α × α) :=
  if self.elems = 0 then
    some (0, 0)
  else
    match self.mean mem with
    | some meanTemp =>
      match varLoop mem self.d.data meanTemp self.elems 0 0 with
      | some varTemp => some (meanTemp, varTemp / (self.elems : α))
      | none => none
    | none => none

/-- The member `double variance() const`. -/
def variance (self : IntensityImage) (mem : Heap α) : Option α :=
  match self.distribution mem with
  | some (_, varTemp) => some varTemp
  | none => none

/-- The member `double stddev() const`, for a given `std::sqrt`. -/
def stddev (sqrt : α → α) (self : IntensityImage) (mem : Heap α) : Option α :=
  match self.variance mem with
  | some v => some (sqrt v)
  | none => none

/-- The loop `for (i = ...; i < numOfElems; ++i) if (data[i] > result) result = data[i];`
with `k` iterations left, at counter `i`. -/
def maxLoop (mem : Heap α) (data : Ptr) : Nat → Nat → α → Option α
  | 0, _, result => some result
  | k + 1, i, result =>
    match mem.read data i with
    | some x => maxLoop mem data k (i + 1) (if x > result then x else result)
    | none => none

/-- The member `double max() const`. -/
def max (self : IntensityImage) (mem : Heap α) : Option α :=
  if self.elems = 0 then
    some 0
  else
    match mem.read self.d.data 0 with
    | some result => maxLoop mem self.d.data (self.elems - 1) 1 result
    | none => none

/-- The loop `for (i = ...; i < numOfElems; ++i) if (data[i] < result) result = data[i];`
with `k` iterations left, at counter `i`. -/
def minLoop (mem : Heap α) (data : Ptr) : Nat → Nat → α → Option α
  | 0, _, result => some result
  | k + 1, i, result =>
    match mem.read data i with
    | some x => minLoop mem data k (i + 1) (if x < result then x else result)
    | none => none

/-- The member `double min() const`. -/
def min (self : IntensityImage) (mem : Heap α) : Option α :=
  if self.elems = 0 then
    some 0
  else
    match mem.read self.d.data 0 with
    | some result => minLoop mem self.d.data (self.elems - 1) 1 result
    | none => none

end Statistics

/-! ### Observations used to state the properties -/

/-- The data model of the class: the object has no array and both dimensions
are zero, or both dimensions are positive and it points to a live array of
exactly `width * height` elements, a number that fits `size_t`. -/
def Valid (self : IntensityImage) (mem : Heap α) : Prop :=
  self.d.data = none ∧ self.d.width = 0 ∧ self.d.height = 0 ∨
  0 < self.d.width ∧ 0 < self.d.height ∧ self.d.width * self.d.height < SIZE_MODULUS ∧
    (mem.buffer self.d.data).map List.length = some (self.d.width * self.d.height)

instance (self : IntensityImage) (mem : Heap α) : Decidable (self.Valid mem) := by
  unfold Valid; infer_instance

/-- The element sequence seen through `data()`: the first `elems()` elements
of the array, the empty sequence for an object without array. -/
def values (self : IntensityImage) (mem : Heap α) : Option (List α) :=
  match self.d.data with
  | none => some []
  | some p => (mem.buffer (some p)).map (List.take self.elems)

end IntensityImage

namespace IntensityImage

variable {α : Type}

end IntensityImage

/-! ### Programs: several objects in one store -/

/-- Two stores with the same addresses and, at each address, arrays of the same
size (or none at both). -/
def Heap.SameSizes {α : Type} (mem mem1 : Heap α) : Prop :=
  mem1.length = mem.length ∧
  ∀ q, (mem1.buffer (some q)).map List.length = (mem.buffer (some q)).map List.length

/-- The state of a program: the `IntensityImage` objects it has constructed, in
the order of their construction, and the free store. -/
structure World (α : Type) where
  objects : List IntensityImage
  mem : Heap α

/-- One statement of a program; objects are named by their position in
`World.objects`. -/
inductive Op (α : Type) where
  | create
  | create_value (width height : Nat) (value : α)
  | create_data (width height : Nat) (data : Ptr)
  | create_adopt (width height : Nat) (data : Ptr)
  | create_copy (rhs : Nat)
  | create_move (rhs : Nat)
  | assign_copy (self rhs : Nat)
  | assign_move (self rhs : Nat)
  | swap (lhs rhs : Nat)
  | setValueAt (self row col : Nat) (value : α)

namespace World

variable {α : Type}

/-- The state in which no object has been constructed yet; `mem` holds the arrays
of the caller. -/
def init (mem : Heap α) : World α :=
  { objects := [], mem := mem }

/-- The effect of one statement; `none` when the statement names an object that
does not exist or has undefined behaviour.  A `setValueAt` that throws leaves the
state as it finds it. -/
def step [Inhabited α] (s : World α) : Op α → Option (World α)
  | .create => some { objects := s.objects ++ [IntensityImage.create], mem := s.mem }
  | .create_value w h v =>
    match IntensityImage.create_value w h v s.mem with
    | some (m, mem1) => some { objects := s.objects ++ [m], mem := mem1 }
    | none => none
  | .create_data w h d =>
    match IntensityImage.create_data w h d s.mem with
    | some (m, mem1) => some { objects := s.objects ++ [m], mem := mem1 }
    | none => none
  | .create_adopt w h d =>
    some { objects := s.objects ++ [IntensityImage.create_adopt w h d], mem := s.mem }
  | .create_copy j =>
    match s.objects[j]? with
    | some a =>
      match IntensityImage.create_copy a s.mem with
      | some (m, mem1) => some { objects := s.objects ++ [m], mem := mem1 }
      | none => none
    | none => none
  | .create_move j =>
    match s.objects[j]? with
    | some a =>
      some { objects := s.objects.set j (IntensityImage.create_move a).2
               ++ [(IntensityImage.create_move a).1],
             mem := s.mem }
    | none => none
  | .assign_copy i j =>
    match s.objects[i]?, s.objects[j]? with
    | some b, some a =>
      match b.assign_copy a s.mem with
      | some (b1, mem1) => some { objects := s.objects.set i b1, mem := mem1 }
      | none => none
    | _, _ => none
  | .assign_move i j =>
    match s.objects[i]?, s.objects[j]? with
    | some b, some a =>
      some { objects := (s.objects.set i (b.assign_move a).1).set j (b.assign_move a).2,
             mem := s.mem }
    | _, _ => none
  | .swap i j =>
    match s.objects[i]?, s.objects[j]? with
    | some b, some a =>
      some { objects := (s.objects.set i (IntensityImage.swap b a).1).set j
               (IntensityImage.swap b a).2,
             mem := s.mem }
    | _, _ => none
  | .setValueAt i row col v =>
    match s.objects[i]? with
    | some m =>
      match m.setValueAt row col v s.mem with
      | (.ok _, m1, mem1) => some { objects := s.objects.set i m1, mem := mem1 }
      | (.error .out_of_range, m1, mem1) => some { objects := s.objects.set i m1, mem := mem1 }
      | (.error .undefined_behaviour, _, _) => none
    | none => none

/-- The effect of a sequence of statements. -/
def run [Inhabited α] (s : World α) : List (Op α) → Option (World α)
  | [] => some s
  | op :: ops =>
    match s.step op with
    | some s1 => s1.run ops
    | none => none

/-- What a statement may assume of its arguments in the state `s`: the two
constructors that allocate get a width and a height whose product fits `size_t`,
and the adopting constructor, unless it gets a zero dimension or a null pointer,
gets a live array of exactly `width * height` elements that no object owns. -/
def Allowed (s : World α) : Op α → Prop
  | .create_value w h _ => w * h < SIZE_MODULUS
  | .create_data w h _ => w * h < SIZE_MODULUS
  | .create_adopt w h d =>
    w = 0 ∨ h = 0 ∨ d = none ∨
      (w * h < SIZE_MODULUS ∧ (s.mem.buffer d).map List.length = some (w * h) ∧
        ∀ m ∈ s.objects, m.d.data ≠ d)
  | _ => True

/-- Every statement of the sequence is allowed in the state it is executed in. -/
def AllAllowed [Inhabited α] (s : World α) : List (Op α) → Prop
  | [] => True
  | op :: ops =>
    s.Allowed op ∧
    match s.step op with
    | some s1 => s1.AllAllowed ops
    | none => True

instance decidableAllowed (s : World α) (op : Op α) : Decidable (s.Allowed op) := by
  cases op <;> unfold Allowed <;> infer_instance

instance decidableAllAllowed [Inhabited α] :
    (ops : List (Op α)) → (s : World α) → Decidable (s.AllAllowed ops)
  | [], _ => isTrue trivial
  | op :: ops, s =>
    match h : s.step op with
    | some s1 =>
      match decidableAllowed s op, decidableAllAllowed ops s1 with
      | isTrue h1, isTrue h2 => isTrue (by unfold AllAllowed; rw [h]; exact ⟨h1, h2⟩)
      | isFalse h1, _ => isFalse (by unfold AllAllowed; rw [h]; exact fun hc => h1 hc.1)
      | _, isFalse h2 => isFalse (by unfold AllAllowed; rw [h]; exact fun hc => h2 hc.2)
    | none =>
      match decidableAllowed s op with
      | isTrue h1 => isTrue (by unfold AllAllowed; rw [h]; exact ⟨h1, trivial⟩)
      | isFalse h1 => isFalse (by unfold AllAllowed; rw [h]; exact fun hc => h1 hc.1)

/-- The invariant of a program state: every object satisfies the data model, and
no two objects point to the same array. -/
def Consistent (s : World α) : Prop :=
  ∀ (i : Nat) (m : IntensityImage), s.objects[i]? = some m →
    m.Valid s.mem ∧
    ∀ (j : Nat) (m2 : IntensityImage), j ≠ i → s.objects[j]? = some m2 →
      ∀ p, m.d.data = some p → m2.d.data ≠ some p

end World

/-! ### A sample object: width 2, height 3, data 1 .. 6 -/

/-- A store whose only array holds 1, 2, 3, 4, 5, 6. -/
def sampleHeap : Heap ℚ :=
  [some [1, 2, 3, 4, 5, 6]]

/-- The object of width 2 and height 3 over the array of `sampleHeap`. -/
def sampleImage : IntensityImage :=
  { d := { width := 2, height := 3, data := some 0 } }

/-- The store `sampleHeap` with a second array, holding 7 .. 12. -/
def sampleHeap3 : Heap ℚ :=
  [some [1, 2, 3, 4, 5, 6], some [7, 8, 9, 10, 11, 12]]

/-- The object of width 3 and height 2 over the second array of `sampleHeap3`. -/
def sampleImage3 : IntensityImage :=
  { d := { width := 3, height := 2, data := some 1 } }

/-- The store after `IntensityImage(2, 3, data)` has copied the array of
`sampleHeap`. -/
def scenarioHeap : Heap ℚ :=
  [some [1, 2, 3, 4, 5, 6], some [1, 2, 3, 4, 5, 6]]

/-- The object `IntensityImage(2, 3, data)` builds in `sampleHeap`. -/
def scenarioImage : IntensityImage :=
  { d := { width := 2, height := 3, data := some 1 } }

/-- A program over `sampleHeap` that uses every constructor, both assignments,
`swap` and `setValueAt` (once in range, once out of range). -/
def sampleProgram : List (Op ℚ) :=
  [.create_value 2 3 7, .create_data 2 3 (some 0), .create, .assign_copy 2 0,
   .setValueAt 0 1 1 9, .setValueAt 0 5 5 9, .swap 0 1, .assign_move 2 1,
   .create_adopt 3 2 (some 0), .assign_copy 3 2, .create_copy 3, .create_move 0]

/-- The state `sampleProgram` ends in. -/
def sampleWorld : World ℚ :=
  { objects :=
      [{ d := { width := 0, height := 0, data := none } },
       { d := { width := 2, height := 3, data := some 3 } },
       { d := { width := 2, height := 3, data := some 1 } },
       { d := { width := 2, height := 3, data := some 4 } },
       { d := { width := 2, height := 3, data := some 5 } },
       { d := { width := 2, height := 3, data := some 2 } }],
    mem :=
      [none, some [7, 7, 7, 7, 9, 7], some [1, 2, 3, 4, 5, 6], some [7, 7, 7, 7, 7, 7],
       some [7, 7, 7, 7, 9, 7], some [7, 7, 7, 7, 9, 7]] }

/-- The object `IntensityImage(2 ^ 63 + 1, 2, 7)` builds in the empty store: the
`size_t` product of its dimensions wraps to 2. -/
def wrappedImage : IntensityImage :=
  { d := { width := 2 ^ 63 + 1, height := 2, data := some 0 } }

/-- The store after `IntensityImage(2 ^ 63 + 1, 2, 7)`: one array of 2 elements. -/
def wrappedHeap : Heap ℚ :=
  [some [7, 7]]

end Core

/-! ## The free store -/

namespace Core

namespace Heap

variable {α : Type}

theorem buffer_lt {mem : Heap α} {p : Nat} {buf : List α}
    (h : mem.buffer (some p) = some buf) : p < mem.length := by
  by_contra hlt
  simp [buffer, List.getD_eq_getElem?_getD, List.getElem?_eq_none (Nat.le_of_not_lt hlt)] at h

theorem buffer_set_self (mem : Heap α) {p : Nat} (x : Option (List α)) (h : p < mem.length) :
    buffer (mem.set p x) (some p) = x := by
  simp [buffer, List.getD_eq_getElem?_getD, List.getElem?_set, h]

theorem buffer_set_ne (mem : Heap α) {p q : Nat} (x : Option (List α)) (h : q ≠ p) :
    buffer (mem.set p x) (some q) = mem.buffer (some q) := by
  simp [buffer, List.getD_eq_getElem?_getD, List.getElem?_set, Ne.symm h]

theorem set_buffer_self {mem : Heap α} {p : Nat} {buf : List α}
    (h : mem.buffer (some p) = some buf) : mem.set p (some buf) = mem := by
  have hlt := buffer_lt h
  simp [buffer, List.getD_eq_getElem?_getD, List.getElem?_eq_getElem hlt] at h
  apply List.ext_getElem?
  intro j
  by_cases hj : p = j
  · subst hj; simp [List.getElem?_set, hlt, h]
  · simp [List.getElem?_set, hj]

theorem write_eq {mem : Heap α} {p i : Nat} {buf : List α} (v : α)
    (h : mem.buffer (some p) = some buf) (hi : i < buf.length) :
    mem.write (some p) i v = some (mem.set p (some (buf.set i v))) := by
  simp [write, h, hi]

theorem read_eq {mem : Heap α} {p : Nat} {buf : List α} (i : Nat)
    (h : mem.buffer (some p) = some buf) :
    mem.read (some p) i = buf[i]? := by
  simp [read, h]

theorem buffer_append_old {mem : Heap α} {p : Nat} (x : Option (List α)) (h : p < mem.length) :
    buffer (mem ++ [x]) (some p) = mem.buffer (some p) := by
  simp [buffer, List.getD_eq_getElem?_getD, List.getElem?_append_left h]

theorem buffer_append_new (mem : Heap α) (x : Option (List α)) :
    buffer (mem ++ [x]) (some mem.length) = x := by
  simp [buffer, List.getD_eq_getElem?_getD]

end Heap

/-! ## The loops of `IntensityImagePrivate::copy` -/

namespace IntensityImagePrivate

variable {α : Type}

/-- Writing one more element extends the overwritten stretch by one. -/
theorem set_stretch (buf : List α) (v : α) (i k : Nat) (h : i + (k + 1) ≤ buf.length) (ys : List α)
    (hys : ys.length = k) :
    (buf.set i v).take (i + 1) ++ ys ++ (buf.set i v).drop (i + 1 + k)
      = buf.take i ++ (v :: ys) ++ buf.drop (i + (k + 1)) := by
  have hi : i < buf.length := by omega
  have h1 : (buf.set i v).take (i + 1) = buf.take i ++ [v] := by
    rw [List.take_succ, List.getElem?_set_self hi]
    congr 1
    apply List.ext_getElem?
    intro j
    by_cases hj : j < i
    · rw [List.getElem?_take_of_lt hj, List.getElem?_take_of_lt hj,
        List.getElem?_set_ne (Nat.ne_of_gt hj)]
    · rw [List.getElem?_eq_none, List.getElem?_eq_none] <;> simp <;> omega
  have h2 : (buf.set i v).drop (i + 1 + k) = buf.drop (i + (k + 1)) := by
    apply List.ext_getElem?
    intro j
    have : i ≠ i + 1 + k + j := by omega
    simp [List.getElem?_drop, List.getElem?_set, this]
    congr 1
    omega
  rw [h1, h2]
  simp

theorem fillLoop_eq (p : Nat) (v : α) :
    ∀ (k i : Nat) (mem : Heap α) (buf : List α), mem.buffer (some p) = some buf →
      i + k ≤ buf.length →
      fillLoop (some p) v k i mem
        = some (mem.set p (some (buf.take i ++ List.replicate k v ++ buf.drop (i + k)))) := by
  intro k
  induction k with
  | zero =>
    intro i mem buf h _
    simp [fillLoop, Heap.set_buffer_self h]
  | succ k ih =>
    intro i mem buf h hik
    have hi : i < buf.length := by omega
    have hp := Heap.buffer_lt h
    rw [fillLoop, Heap.write_eq v h hi]
    simp only
    rw [ih (i + 1) _ (buf.set i v) (Heap.buffer_set_self mem _ hp) (by simp; omega)]
    rw [List.set_set, set_stretch buf v i k hik _ (by simp)]
    simp [List.replicate_succ]

theorem copyLoop_eq (p q : Nat) (hpq : p ≠ q) (src : List α) :
    ∀ (k i : Nat) (mem : Heap α) (buf : List α), mem.buffer (some p) = some buf →
      mem.buffer (some q) = some src → i + k ≤ buf.length → i + k ≤ src.length →
      copyLoop (some p) (some q) k i mem
        = some (mem.set p (some (buf.take i ++ (src.drop i).take k ++ buf.drop (i + k)))) := by
  intro k
  induction k with
  | zero =>
    intro i mem buf h _ _ _
    simp [copyLoop, Heap.set_buffer_self h]
  | succ k ih =>
    intro i mem buf h hq hik hsk
    have hi : i < buf.length := by omega
    have hs : i < src.length := by omega
    have hp := Heap.buffer_lt h
    rw [copyLoop, Heap.read_eq i hq, List.getElem?_eq_getElem hs]
    simp only
    rw [Heap.write_eq _ h hi]
    simp only
    rw [ih (i + 1) _ (buf.set i src[i]) (Heap.buffer_set_self mem _ hp)
      (by rw [Heap.buffer_set_ne mem _ (Ne.symm hpq)]; exact hq) (by simp; omega) (by omega)]
    rw [List.set_set, set_stretch buf src[i] i k hik _ (by simp; omega)]
    rw [List.drop_eq_getElem_cons hs, List.take_succ_cons]

/-- Copying a buffer onto itself (`data == d`) changes nothing. -/
theorem copyLoop_self (p : Nat) :
    ∀ (k i : Nat) (mem : Heap α) (buf : List α), mem.buffer (some p) = some buf →
      i + k ≤ buf.length → copyLoop (some p) (some p) k i mem = some mem := by
  intro k
  induction k with
  | zero => intro i mem buf _ _; simp [copyLoop]
  | succ k ih =>
    intro i mem buf h hik
    have hi : i < buf.length := by omega
    rw [copyLoop, Heap.read_eq i h, List.getElem?_eq_getElem hi]
    simp only
    rw [Heap.write_eq _ h hi]
    simp only
    have hset : buf.set i buf[i] = buf := by
      apply List.ext_getElem?
      intro j
      by_cases hj : i = j
      · subst hj; simp [List.getElem?_set_self hi, List.getElem?_eq_getElem hi]
      · rw [List.getElem?_set_ne hj]
    rw [hset, Heap.set_buffer_self h]
    exact ih (i + 1) mem buf h (by omega)

/-- The buffer that `new double[n]` adds, once a loop has overwritten it. -/
theorem set_alloc [Inhabited α] (mem : Heap α) (n : Nat) (x : Option (List α)) :
    (mem.alloc n).2.set (mem.alloc n).1 x = mem ++ [x] := by
  simp [Heap.alloc]

theorem buffer_alloc [Inhabited α] (mem : Heap α) (n : Nat) :
    (mem.alloc n).2.buffer (some (mem.alloc n).1) = some (List.replicate n default) := by
  simp [Heap.alloc, Heap.buffer_append_new]

/-- The fill `copy` on an object without array allocates and fills, whatever
`w` and `h` are. -/
theorem copy_value_fresh [Inhabited α] (self : IntensityImagePrivate) (w h : Nat) (value : α)
    (mem : Heap α) (hd : self.data = none) (hw : w ≠ 0) (hh : h ≠ 0) :
    self.copy_value w h value mem
      = some ({ width := w, height := h, data := some mem.length },
          mem ++ [some (List.replicate ((w * h) % SIZE_MODULUS) value)]) := by
  unfold copy_value
  simp only [hw, hh, or_self, if_false, hd, ne_eq, not_true_eq_false, false_and]
  rw [fillLoop_eq _ value _ 0 _ _ (buffer_alloc mem _) (by simp), set_alloc]
  simp [Heap.alloc]

/-- The data `copy` on an object without array allocates and copies the first
`w * h` (as `size_t`) elements of the source. -/
theorem copy_data_fresh [Inhabited α] (self : IntensityImagePrivate) (w h q : Nat)
    (mem : Heap α) (src : List α) (hd : self.data = none) (hw : w ≠ 0) (hh : h ≠ 0)
    (hq : mem.buffer (some q) = some src) (hlen : (w * h) % SIZE_MODULUS ≤ src.length) :
    self.copy_data w h (some q) mem
      = some ({ width := w, height := h, data := some mem.length },
          mem ++ [some (src.take ((w * h) % SIZE_MODULUS))]) := by
  have hql := Heap.buffer_lt hq
  unfold copy_data
  simp only [hw, hh, false_or, if_false, hd, ne_eq, not_true_eq_false, false_and, reduceCtorEq]
  rw [copyLoop_eq _ q (by simp [Heap.alloc]; omega) src _ 0 _ _ (buffer_alloc mem _)
    (by simp only [Heap.alloc]; rw [Heap.buffer_append_old _ hql]; exact hq) (by simp) (by simpa using hlen),
    set_alloc]
  simp [Heap.alloc]

end IntensityImagePrivate

/-! ## Element access -/

namespace IntensityImage

variable {α : Type}

theorem offset_lt {row col w h : Nat} (hr : row < h) (hc : col < w) : row + col * h < w * h := by
  have h1 : (col + 1) * h ≤ w * h := Nat.mul_le_mul_right h hc
  have h2 : (col + 1) * h = col * h + h := by ring
  omega

theorem offset_inj {row col r c h : Nat} (hr : row < h) (hr2 : r < h)
    (heq : row + col * h = r + c * h) : row = r ∧ col = c := by
  have hm : (row + col * h) % h = (r + c * h) % h := by rw [heq]
  rw [Nat.add_mul_mod_self_right, Nat.add_mul_mod_self_right, Nat.mod_eq_of_lt hr,
    Nat.mod_eq_of_lt hr2] at hm
  subst hm
  have hpos : 0 < h := by omega
  have hmul : col * h = c * h := by omega
  exact ⟨rfl, Nat.eq_of_mul_eq_mul_right hpos hmul⟩

/-- A valid object with an in-range position has an array of the right size. -/
theorem Valid.buffer {m : IntensityImage} {mem : Heap α} (hv : m.Valid mem) {row : Nat}
    (hr : row < m.d.height) :
    ∃ p buf, m.d.data = some p ∧ mem.buffer (some p) = some buf ∧
      buf.length = m.d.width * m.d.height ∧ m.d.width * m.d.height < SIZE_MODULUS := by
  rcases hv with ⟨_, _, h0⟩ | ⟨_, _, hfit, hb⟩
  · omega
  · cases hd : m.d.data with
    | none => simp [hd, Heap.buffer] at hb
    | some p =>
      rw [hd] at hb
      cases hbuf : mem.buffer (some p) with
      | none => simp [hbuf] at hb
      | some buf =>
        rw [hbuf] at hb
        exact ⟨p, buf, rfl, hbuf, by simpa using hb, hfit⟩

/-- The offset the accessors compute does not wrap on a valid object. -/
theorem offset_mod {m : IntensityImage} {row col : Nat} (hr : row < m.d.height)
    (hc : col < m.d.width) (hfit : m.d.width * m.d.height < SIZE_MODULUS) :
    (row + col * m.d.height) % SIZE_MODULUS = row + col * m.d.height :=
  Nat.mod_eq_of_lt (Nat.lt_trans (offset_lt hr hc) hfit)

theorem getValueAt_eq {m : IntensityImage} {mem : Heap α} {p : Nat} {buf : List α}
    (hd : m.d.data = some p) (hb : mem.buffer (some p) = some buf)
    (hlen : buf.length = m.d.width * m.d.height) (hfit : m.d.width * m.d.height < SIZE_MODULUS)
    {row col : Nat} (hr : row < m.d.height) (hc : col < m.d.width) :
    ∃ x, buf[row + col * m.d.height]? = some x ∧ m.getValueAt row col mem = .ok x := by
  have hlt : row + col * m.d.height < buf.length := by rw [hlen]; exact offset_lt hr hc
  refine ⟨buf[row + col * m.d.height], List.getElem?_eq_getElem hlt, ?_⟩
  have hnr : ¬ (row ≥ m.d.height ∨ col ≥ m.d.width) := by omega
  simp only [getValueAt, call_const, hnr, if_false, offset_mod hr hc hfit, element, hd, hb, hlt,
    if_true, Heap.read_eq _ hb, List.getElem?_eq_getElem hlt]

theorem setValueAt_eq {m : IntensityImage} {mem : Heap α} {p : Nat} {buf : List α}
    (hd : m.d.data = some p) (hb : mem.buffer (some p) = some buf)
    (hlen : buf.length = m.d.width * m.d.height) (hfit : m.d.width * m.d.height < SIZE_MODULUS)
    {row col : Nat} (hr : row < m.d.height) (hc : col < m.d.width) (v : α) :
    m.setValueAt row col v mem
      = (.ok (), m, mem.set p (some (buf.set (row + col * m.d.height) v))) := by
  have hlt : row + col * m.d.height < buf.length := by rw [hlen]; exact offset_lt hr hc
  have hnr : ¬ (row ≥ m.d.height ∨ col ≥ m.d.width) := by omega
  simp only [setValueAt, hnr, if_false, offset_mod hr hc hfit, hd, Heap.write_eq v hb hlt]

/-- C1, amended: on a matrix that satisfies the data model (an array of exactly
`width() * height()` elements, a product that fits `size_t`), `setValueAt(row, col, v)` at an
in-range position returns normally; afterwards `getValueAt(row, col)` returns `v`,
every other in-range position reads what it read before, `width()` and `height()`
are unchanged, and the data model still holds. -/
theorem setValueAt_frame (m : IntensityImage) (mem : Heap α) (hv : m.Valid mem)
    (row col : Nat) (v : α) (hr : row < m.height) (hc : col < m.width) :
    (m.setValueAt row col v mem).1 = .ok () ∧
    (m.setValueAt row col v mem).2.1.getValueAt row col (m.setValueAt row col v mem).2.2 = .ok v ∧
    (∀ r c, r < m.height → c < m.width → (r, c) ≠ (row, col) →
      (∃ x, m.getValueAt r c mem = .ok x) ∧
      (m.setValueAt row col v mem).2.1.getValueAt r c (m.setValueAt row col v mem).2.2
        = m.getValueAt r c mem) ∧
    (m.setValueAt row col v mem).2.1.width = m.width ∧
    (m.setValueAt row col v mem).2.1.height = m.height ∧
    (m.setValueAt row col v mem).2.1.Valid (m.setValueAt row col v mem).2.2 := by
  obtain ⟨p, buf, hd, hb, hlen, hfit⟩ := hv.buffer hr
  have hp := Heap.buffer_lt hb
  have hlt : row + col * m.d.height < buf.length := by rw [hlen]; exact offset_lt hr hc
  rw [setValueAt_eq hd hb hlen hfit hr hc v]
  have hb1 : Heap.buffer (mem.set p (some (buf.set (row + col * m.d.height) v))) (some p)
      = some (buf.set (row + col * m.d.height) v) := Heap.buffer_set_self mem _ hp
  have hlen1 : (buf.set (row + col * m.d.height) v).length = m.d.width * m.d.height := by
    simpa using hlen
  refine ⟨rfl, ?_, ?_, rfl, rfl, ?_⟩
  · obtain ⟨x, hx, hget⟩ := getValueAt_eq hd hb1 hlen1 hfit hr hc
    rw [List.getElem?_set_self hlt] at hx
    rw [hget]
    injection hx with hx
    rw [hx]
  · intro r c hr2 hc2 hne
    obtain ⟨x, hx, hget⟩ := getValueAt_eq hd hb1 hlen1 hfit hr2 hc2
    obtain ⟨y, hy, hget0⟩ := getValueAt_eq hd hb hlen hfit hr2 hc2
    refine ⟨⟨y, hget0⟩, ?_⟩
    have hoff : row + col * m.d.height ≠ r + c * m.d.height := by
      intro heq
      obtain ⟨h1, h2⟩ := offset_inj hr hr2 heq
      exact hne (by rw [h1, h2])
    rw [List.getElem?_set_ne hoff, hy] at hx
    simp only [hget, hget0]
    injection hx with hx
    rw [hx]
  · right
    have hw : 0 < m.d.width := by simp only [width] at hc; omega
    have hh : 0 < m.d.height := by simp only [height] at hr; omega
    refine ⟨hw, hh, hfit, ?_⟩
    simp only [hd, hb1, Option.map_some', hlen1]

/-- C1, amended, on the sample object: writing 9 at row 1 of column 1. -/
theorem setValueAt_frame_witness :
    sampleImage.Valid sampleHeap ∧
    (sampleImage.setValueAt 1 1 9 sampleHeap).2.1.getValueAt 1 1
      (sampleImage.setValueAt 1 1 9 sampleHeap).2.2 = .ok 9 :=
  ⟨by decide, (setValueAt_frame sampleImage sampleHeap (by decide) 1 1 9 (by decide)
    (by decide)).2.1⟩

/-- C2: `getValueAt`, `setValueAt` and both `operator()` overloads end with the
out-of-range error exactly when `row >= height()` or `col >= width()`; a
`setValueAt` that does not return normally leaves the object and the store as they
were; and on a matrix that satisfies the data model the four calls return normally
exactly when the position is in range. -/
theorem out_of_range_iff (m : IntensityImage) (mem : Heap α) (row col : Nat) (v : α) :
    (m.getValueAt row col mem = .error .out_of_range ↔ (row ≥ m.height ∨ col ≥ m.width)) ∧
    ((m.setValueAt row col v mem).1 = .error .out_of_range
      ↔ (row ≥ m.height ∨ col ≥ m.width)) ∧
    (m.call row col mem = .error .out_of_range ↔ (row ≥ m.height ∨ col ≥ m.width)) ∧
    (m.call_const row col mem = .error .out_of_range ↔ (row ≥ m.height ∨ col ≥ m.width)) ∧
    ((m.setValueAt row col v mem).1 ≠ .ok () → (m.setValueAt row col v mem).2 = (m, mem)) ∧
    (m.Valid mem → ¬ (row ≥ m.height ∨ col ≥ m.width) →
      (∃ x, m.getValueAt row col mem = .ok x) ∧ (m.setValueAt row col v mem).1 = .ok () ∧
      (∃ r, m.call row col mem = .ok r) ∧ (∃ r, m.call_const row col mem = .ok r)) := by
  refine ⟨?_, ?_, ?_, ?_, ?_, ?_⟩
  · by_cases h : row ≥ m.d.height ∨ col ≥ m.d.width
    · simp [getValueAt, call_const, h, width, height]
    · simp only [getValueAt, call_const, h, if_false, width, height, iff_false, element]
      split
      · split <;> simp
      · rename_i e heq
        intro he
        injection he with he
        subst he
        split at heq
        · split at heq <;> simp at heq
        · simp at heq
  · by_cases h : row ≥ m.d.height ∨ col ≥ m.d.width
    · simp [setValueAt, h, width, height]
    · simp only [setValueAt, h, if_false, width, height, iff_false]
      split <;> simp
  · by_cases h : row ≥ m.d.height ∨ col ≥ m.d.width
    · simp [call, h, width, height]
    · simp only [call, h, if_false, width, height, iff_false, element]
      split
      · split <;> simp
      · simp
  · by_cases h : row ≥ m.d.height ∨ col ≥ m.d.width
    · simp [call_const, h, width, height]
    · simp only [call_const, h, if_false, width, height, iff_false, element]
      split
      · split <;> simp
      · simp
  · by_cases h : row ≥ m.d.height ∨ col ≥ m.d.width
    · simp [setValueAt, h]
    · simp only [setValueAt, h, if_false]
      split <;> simp
  · intro hv hin
    have hr : row < m.d.height := by simp only [height, width] at hin; omega
    have hc : col < m.d.width := by simp only [height, width] at hin; omega
    obtain ⟨p, buf, hd, hb, hlen, hfit⟩ := hv.buffer hr
    have hlt : row + col * m.d.height < buf.length := by rw [hlen]; exact offset_lt hr hc
    have hnr : ¬ (row ≥ m.d.height ∨ col ≥ m.d.width) := by omega
    obtain ⟨x, _, hget⟩ := getValueAt_eq hd hb hlen hfit hr hc
    refine ⟨⟨x, hget⟩, by rw [setValueAt_eq hd hb hlen hfit hr hc v], ?_, ?_⟩
    · exact ⟨⟨p, row + col * m.d.height⟩, by
        simp only [call, hnr, if_false, offset_mod hr hc hfit, element, hd, hb, hlt, if_true]⟩
    · exact ⟨⟨p, row + col * m.d.height⟩, by
        simp only [call_const, hnr, if_false, offset_mod hr hc hfit, element, hd, hb, hlt,
          if_true]⟩

/-- C2, on the sample object: position (1, 1) is in range and all four calls return. -/
theorem out_of_range_iff_witness :
    sampleImage.Valid sampleHeap ∧ ¬ (1 ≥ sampleImage.height ∨ 1 ≥ sampleImage.width) ∧
    (∃ x, sampleImage.getValueAt 1 1 sampleHeap = .ok x) :=
  ⟨by decide, by decide,
    ((out_of_range_iff sampleImage sampleHeap 1 1 9).2.2.2.2.2 (by decide) (by decide)).1⟩

/-- C3, amended: on a matrix that satisfies the data model (an array of exactly
`width() * height()` elements, a product that fits `size_t`), for an in-range position
`getValueAt(row, col)` is the element at offset `row + col * height()` of the array
`data()` points to, and `setValueAt(row, col, v)` replaces the element at that
offset and changes nothing else in the store. -/
theorem column_major (m : IntensityImage) (mem : Heap α) (hv : m.Valid mem)
    (row col : Nat) (v : α) (hr : row < m.height) (hc : col < m.width) :
    ∃ p buf x, m.data = some p ∧ mem.buffer m.data = some buf ∧
      buf[row + col * m.height]? = some x ∧ m.getValueAt row col mem = .ok x ∧
      m.setValueAt row col v mem
        = (.ok (), m, mem.set p (some (buf.set (row + col * m.height) v))) := by
  obtain ⟨p, buf, hd, hb, hlen, hfit⟩ := hv.buffer hr
  obtain ⟨x, hx, hget⟩ := getValueAt_eq hd hb hlen hfit hr hc
  exact ⟨p, buf, x, hd, by simp only [data, hd, hb], hx, hget,
    setValueAt_eq hd hb hlen hfit hr hc v⟩

/-- C3, amended, on the sample object: position (0, 1) is offset 3, the first element of
column 1 (row-major order would make it offset 1). -/
theorem column_major_witness :
    sampleImage.Valid sampleHeap ∧ 0 + 1 * sampleImage.height = 3 ∧
    ∃ p buf x, sampleImage.data = some p ∧ sampleHeap.buffer sampleImage.data = some buf ∧
      buf[0 + 1 * sampleImage.height]? = some x ∧ sampleImage.getValueAt 0 1 sampleHeap = .ok x ∧
      sampleImage.setValueAt 0 1 9 sampleHeap
        = (.ok (), sampleImage, sampleHeap.set p (some (buf.set (0 + 1 * sampleImage.height) 9))) :=
  ⟨by decide, by decide, column_major sampleImage sampleHeap (by decide) 0 1 9 (by decide)
    (by decide)⟩

/-! ## Copy -/

theorem copyLoop_alloc [Inhabited α] (mem : Heap α) (q n : Nat) (src : List α)
    (hq : mem.buffer (some q) = some src) (hlen : n ≤ src.length) :
    IntensityImagePrivate.copyLoop (some (mem.alloc n).1) (some q) n 0 (mem.alloc n).2
      = some (mem ++ [some (src.take n)]) := by
  have hql := Heap.buffer_lt hq
  rw [IntensityImagePrivate.copyLoop_eq _ q (by simp [Heap.alloc]; omega) src _ 0 _ _
    (IntensityImagePrivate.buffer_alloc mem _)
    (by simp only [Heap.alloc]; rw [Heap.buffer_append_old _ hql]; exact hq) (by simp)
    (by simpa using hlen), IntensityImagePrivate.set_alloc]
  simp

/-- The data `copy` onto an object whose array has the requested shape overwrites
that array in place. -/
theorem copy_data_reuse [Inhabited α] (self : IntensityImagePrivate) (w h p q : Nat)
    (mem : Heap α) (buf src : List α) (hd : self.data = some p) (hw : w ≠ 0) (hh : h ≠ 0)
    (hsw : self.width = w) (hsh : self.height = h) (hpq : p ≠ q)
    (hp : mem.buffer (some p) = some buf) (hq : mem.buffer (some q) = some src)
    (hbuf : (w * h) % SIZE_MODULUS ≤ buf.length) (hlen : (w * h) % SIZE_MODULUS ≤ src.length) :
    self.copy_data w h (some q) mem
      = some (self, mem.set p (some (src.take ((w * h) % SIZE_MODULUS)
          ++ buf.drop ((w * h) % SIZE_MODULUS)))) := by
  unfold IntensityImagePrivate.copy_data
  simp only [hw, hh, false_or, if_false, hd, ne_eq, not_false_eq_true, true_and, reduceCtorEq,
    hsw, hsh, and_self, if_true]
  rw [IntensityImagePrivate.copyLoop_eq p q hpq src _ 0 mem buf hp hq (by simpa using hbuf)
    (by simpa using hlen)]
  simp

/-- The data `copy` onto an object whose array has another shape releases that
array and allocates a new one. -/
theorem copy_data_realloc [Inhabited α] (self : IntensityImagePrivate) (w h p q : Nat)
    (mem : Heap α) (buf src : List α) (hd : self.data = some p) (hw : w ≠ 0) (hh : h ≠ 0)
    (hshape : ¬ (self.width = w ∧ self.height = h)) (hpq : p ≠ q)
    (hp : mem.buffer (some p) = some buf) (hq : mem.buffer (some q) = some src)
    (hlen : (w * h) % SIZE_MODULUS ≤ src.length) :
    self.copy_data w h (some q) mem
      = some ({ width := w, height := h, data := some mem.length },
          mem.set p none ++ [some (src.take ((w * h) % SIZE_MODULUS))]) := by
  unfold IntensityImagePrivate.copy_data
  simp only [hw, hh, false_or, if_false, hd, ne_eq, not_false_eq_true, true_and, reduceCtorEq,
    hshape, if_true, Heap.release, hp]
  rw [copyLoop_alloc (mem.set p none) q _ src
    (by rw [Heap.buffer_set_ne mem _ (Ne.symm hpq)]; exact hq) hlen]
  simp [Heap.alloc]

theorem values_append (m : IntensityImage) (mem : Heap α) (x : Option (List α)) (xs : List α)
    (h : m.values mem = some xs) : m.values (mem ++ [x]) = some xs := by
  unfold values at h ⊢
  cases hd : m.d.data with
  | none => simpa [hd] using h
  | some q =>
    simp only [hd] at h ⊢
    cases hb : mem.buffer (some q) with
    | none => simp [hb] at h
    | some buf =>
      rw [Heap.buffer_append_old x (Heap.buffer_lt hb), hb]
      rw [hb] at h
      exact h

/-- A valid object with an array: its element sequence is the whole array. -/
theorem Valid.values {m : IntensityImage} {mem : Heap α} (hv : m.Valid mem) {p : Nat}
    (hd : m.d.data = some p) :
    ∃ buf, mem.buffer (some p) = some buf ∧ buf.length = m.d.width * m.d.height ∧
      m.d.width * m.d.height < SIZE_MODULUS ∧ 0 < m.d.width ∧ 0 < m.d.height ∧
      m.values mem = some buf := by
  rcases hv with ⟨h0, _, _⟩ | ⟨hw, hh, hfit, hb⟩
  · rw [hd] at h0; cases h0
  · rw [hd] at hb
    cases hbuf : mem.buffer (some p) with
    | none => simp [hbuf] at hb
    | some buf =>
      rw [hbuf] at hb
      have hlen : buf.length = m.d.width * m.d.height := by simpa using hb
      refine ⟨buf, rfl, hlen, hfit, hw, hh, ?_⟩
      have hfit2 : buf.length % SIZE_MODULUS = buf.length := by
        rw [hlen]; exact Nat.mod_eq_of_lt hfit
      simp only [IntensityImage.values, hd, hbuf, Option.map_some', elems, ← hlen, hfit2,
        List.take_length]

/-- C5 (move law): the move assignment `b = move(a)` exchanges the two states, so `b`
gets the width, the height, the array and the elements `a` had and `a` gets those
`b` had; the move construction of a new object from `a` gives the new object the
state `a` had and leaves `a` in the empty state (width 0, height 0, no array).
Neither touches the store. -/
theorem move_law (a b : IntensityImage) (mem : Heap α) :
    ((b.assign_move a).1 = a ∧ (b.assign_move a).2 = b) ∧
    ((b.assign_move a).1.width = a.width ∧ (b.assign_move a).1.height = a.height ∧
      (b.assign_move a).1.data = a.data ∧ (b.assign_move a).1.values mem = a.values mem) ∧
    ((b.assign_move a).2.width = b.width ∧ (b.assign_move a).2.height = b.height ∧
      (b.assign_move a).2.data = b.data ∧ (b.assign_move a).2.values mem = b.values mem) ∧
    ((create_move a).1 = a ∧ (create_move a).1.width = a.width ∧
      (create_move a).1.height = a.height ∧ (create_move a).1.data = a.data ∧
      (create_move a).1.values mem = a.values mem) ∧
    ((create_move a).2.width = 0 ∧ (create_move a).2.height = 0 ∧
      (create_move a).2.data = none ∧ (create_move a).2.empty = true ∧
      (create_move a).2 = create) := by
  simp [assign_move, create_move, swap, create, IntensityImagePrivate.ctor, width, height, data,
    empty]

/-! ## Construction -/

/-- C6 (degenerate construction): each sized constructor called with `width == 0`
or `height == 0`, or (the two data constructors) with a null pointer, returns,
leaves the store alone and yields the state of the default constructor, for which
`empty()` holds and `width()`, `height()` and `elems()` are 0. -/
theorem degenerate_construction [Inhabited α] (w h : Nat) (v : α) (d : Ptr) (mem : Heap α) :
    (w = 0 ∨ h = 0 → create_value w h v mem = some (create, mem)) ∧
    (w = 0 ∨ h = 0 ∨ d = none → create_data w h d mem = some (create, mem)) ∧
    (w = 0 ∨ h = 0 ∨ d = none → create_adopt w h d = create) ∧
    (create.empty = true ∧ create.width = 0 ∧ create.height = 0 ∧ create.elems = 0) := by
  refine ⟨?_, ?_, ?_, ?_⟩
  · intro hdeg
    simp [create_value, IntensityImagePrivate.copy_value, hdeg, create, IntensityImagePrivate.ctor]
  · intro hdeg
    simp [create_data, IntensityImagePrivate.copy_data, hdeg, create, IntensityImagePrivate.ctor]
  · intro hdeg
    simp [create_adopt, hdeg, create]
  · simp [create, IntensityImagePrivate.ctor, empty, width, height, elems]

/-- C6, for width 0 and height 5, for width 5 and height 0, and for a null pointer. -/
theorem degenerate_construction_witness :
    create_value 0 5 (1 : ℚ) sampleHeap = some (create, sampleHeap) ∧
    create_value 5 0 (1 : ℚ) sampleHeap = some (create, sampleHeap) ∧
    create_data 2 3 none sampleHeap = some (create, sampleHeap) ∧
    create_adopt 2 3 none = create :=
  ⟨(degenerate_construction 0 5 (1 : ℚ) none sampleHeap).1 (by decide),
    (degenerate_construction 5 0 (1 : ℚ) none sampleHeap).1 (by decide),
    (degenerate_construction 2 3 (1 : ℚ) none sampleHeap).2.1 (by decide),
    (degenerate_construction 2 3 (1 : ℚ) none sampleHeap).2.2.1 (by decide)⟩

/-- C7 (data round trip): for `width > 0`, `height > 0` and an array `s` of
`width * height` elements (the `size_t` product, which is the exact product
whenever that fits `size_t`) at address `q`, the constructor that copies the data
returns an object with `width() == width`, `height() == height`,
`elems() == width * height` whose `data()` points to a new array equal to `s`,
while the array at `q` is as before; the constructor that adopts the array yields
the same dimensions with `data()` being `q` itself.  When `width * height` fits
`size_t`, `s` has exactly that many elements. -/
theorem data_round_trip [Inhabited α] (w h q : Nat) (s : List α) (mem : Heap α)
    (hw : 0 < w) (hh : 0 < h) (hq : mem.buffer (some q) = some s)
    (hs : s.length = (w * h) % SIZE_MODULUS) :
    (∃ m mem1, create_data w h (some q) mem = some (m, mem1) ∧
      m.width = w ∧ m.height = h ∧ m.elems = (w * h) % SIZE_MODULUS ∧ m.elems = s.length ∧
      mem1.buffer m.data = some s ∧ m.values mem1 = some s ∧
      m.data ≠ some q ∧ mem1.buffer (some q) = some s) ∧
    ((create_adopt w h (some q)).width = w ∧ (create_adopt w h (some q)).height = h ∧
      (create_adopt w h (some q)).elems = (w * h) % SIZE_MODULUS ∧
      (create_adopt w h (some q)).elems = s.length ∧
      (create_adopt w h (some q)).data = some q ∧
      mem.buffer (create_adopt w h (some q)).data = some s ∧
      (create_adopt w h (some q)).values mem = some s) ∧
    (w * h < SIZE_MODULUS → s.length = w * h) := by
  have hw0 : w ≠ 0 := by omega
  have hh0 : h ≠ 0 := by omega
  have hql := Heap.buffer_lt hq
  refine ⟨?_, ?_, fun hfit => by rw [hs, Nat.mod_eq_of_lt hfit]⟩
  · refine ⟨{ d := { width := w, height := h, data := some mem.length } },
      mem ++ [some s], ?_, rfl, rfl, rfl, ?_, ?_, ?_, ?_, ?_⟩
    · have hfresh := IntensityImagePrivate.copy_data_fresh IntensityImagePrivate.ctor w h q mem s
        rfl hw0 hh0 hq (by rw [hs])
      rw [← hs, List.take_length] at hfresh
      simp only [create_data, hfresh]
    · simp only [elems, hs]
    · simp only [data, Heap.buffer_append_new]
    · simp only [values, Heap.buffer_append_new, Option.map_some', elems, ← hs, List.take_length]
    · simp only [data, ne_eq, Option.some.injEq]
      omega
    · rw [Heap.buffer_append_old _ hql]; exact hq
  · have hadopt : create_adopt w h (some q)
        = { d := { width := w, height := h, data := some q } } := by
      simp [create_adopt, hw0, hh0]
    rw [hadopt]
    refine ⟨rfl, rfl, rfl, ?_, rfl, hq, ?_⟩
    · simp only [elems, hs]
    · simp only [values, hq, Option.map_some', elems, ← hs, List.take_length]

/-- C7, for width 2, height 3 and the array 1 .. 6 of the sample store. -/
theorem data_round_trip_witness :
    sampleHeap.buffer (some 0) = some [1, 2, 3, 4, 5, 6] ∧
    create_data 2 3 (some 0) sampleHeap
      = some ({ d := { width := 2, height := 3, data := some 1 } },
          [some [1, 2, 3, 4, 5, 6], some [1, 2, 3, 4, 5, 6]]) ∧
    (create_adopt 2 3 (some 0)).values sampleHeap = some [1, 2, 3, 4, 5, 6] :=
  ⟨by decide, by rfl,
    (data_round_trip 2 3 0 [1, 2, 3, 4, 5, 6] sampleHeap (by decide) (by decide) (by decide)
      (by decide)).2.1.2.2.2.2.2.2⟩

/-- The fill constructor with non-zero dimensions always returns: it allocates
`width * height` elements, the product taken in `size_t`. -/
theorem create_value_eq [Inhabited α] (w h : Nat) (v : α) (mem : Heap α) (hw : 0 < w)
    (hh : 0 < h) :
    create_value w h v mem
      = some ({ d := { width := w, height := h, data := some mem.length } },
          mem ++ [some (List.replicate ((w * h) % SIZE_MODULUS) v)]) := by
  have hfresh := IntensityImagePrivate.copy_value_fresh IntensityImagePrivate.ctor w h v mem rfl
    (by omega) (by omega)
  simp only [create_value, hfresh]

/-- C8, as the claim states it, fails when `width * height` wraps: for width
`2 ^ 63 + 1` and height 2 the constructor allocates 2 elements, and the in-range
position (0, 1) has offset 2, outside the array. -/
theorem create_value_overflow :
    create_value (2 ^ 63 + 1) 2 (7 : ℚ) []
      = some ({ d := { width := 2 ^ 63 + 1, height := 2, data := some 0 } }, [some [7, 7]]) ∧
    (0 < 2 ∧ 1 < 2 ^ 63 + 1) ∧
    getValueAt { d := { width := 2 ^ 63 + 1, height := 2, data := some 0 } } 0 1 [some [(7 : ℚ), 7]]
      = .error .undefined_behaviour ∧
    getValueAt { d := { width := 2 ^ 63 + 1, height := 2, data := some 0 } } 0 1 [some [(7 : ℚ), 7]]
      ≠ .ok 7 :=
  ⟨by rfl, by decide, by rfl, by
    intro hc
    have hu : getValueAt { d := { width := 2 ^ 63 + 1, height := 2, data := some 0 } } 0 1
        [some [(7 : ℚ), 7]] = .error .undefined_behaviour := by rfl
    rw [hu] at hc
    cases hc⟩

/-- C8, amended (fill construction): for `width > 0`, `height > 0` whose product
fits `size_t`, and a value `v`, `IntensityImage(width, height, v)` returns a
non-empty object with `width() == width`, `height() == height`,
`elems() == width * height`, whose array has exactly `width * height` elements,
and `getValueAt(row, col) == v` for every `row < height` and `col < width`. -/
theorem fill_construction [Inhabited α] (w h : Nat) (v : α) (mem : Heap α) (hw : 0 < w)
    (hh : 0 < h) (hfit : w * h < SIZE_MODULUS) :
    ∃ m mem1, create_value w h v mem = some (m, mem1) ∧
      m.empty = false ∧ m.width = w ∧ m.height = h ∧ m.elems = w * h ∧
      mem1.buffer m.data = some (List.replicate (w * h) v) ∧ m.Valid mem1 ∧
      ∀ row col, row < h → col < w → m.getValueAt row col mem1 = .ok v := by
  have hb : Heap.buffer (mem ++ [some (List.replicate (w * h) v)]) (some mem.length)
      = some (List.replicate (w * h) v) := Heap.buffer_append_new mem _
  refine ⟨{ d := { width := w, height := h, data := some mem.length } },
    mem ++ [some (List.replicate (w * h) v)], ?_, rfl, rfl, rfl, ?_, hb, ?_, ?_⟩
  · rw [create_value_eq w h v mem hw hh, Nat.mod_eq_of_lt hfit]
  · simp only [elems, Nat.mod_eq_of_lt hfit]
  · exact Or.inr ⟨hw, hh, hfit, by rw [hb]; simp⟩
  · intro row col hr hc
    have hd : (IntensityImage.mk ⟨w, h, some mem.length⟩).d.data = some mem.length := rfl
    obtain ⟨x, hx, hget⟩ := getValueAt_eq hd hb (by simp) hfit hr hc
    have hlt : row + col * h < w * h := offset_lt hr hc
    rw [List.getElem?_replicate] at hx
    simp only [hlt, if_true] at hx
    injection hx with hx
    rw [hget, hx]

/-- C8, amended, for width 2, height 3 and the value 7 in the empty store. -/
theorem fill_construction_witness :
    create_value 2 3 (7 : ℚ) [] = some ({ d := { width := 2, height := 3, data := some 0 } },
      [some [7, 7, 7, 7, 7, 7]]) ∧
    ∃ m mem1, create_value 2 3 (7 : ℚ) [] = some (m, mem1) ∧
      m.empty = false ∧ m.width = 2 ∧ m.height = 3 ∧ m.elems = 2 * 3 ∧
      mem1.buffer m.data = some (List.replicate (2 * 3) 7) ∧ m.Valid mem1 ∧
      ∀ row col, row < 3 → col < 2 → m.getValueAt row col mem1 = .ok 7 :=
  ⟨by rfl, fill_construction 2 3 (7 : ℚ) [] (by decide) (by decide) (by decide)⟩

/-! ## Statistics -/

section Statistics

variable {α : Type} [LinearOrderedField α]

/-- C9 (statistics of an empty matrix): whenever `elems() == 0`, the members `sum()`,
`mean()`, `variance()`, `stddev()`, `max()` and `min()` return 0 and
`distribution` stores 0 in both outputs; none of them touches the array.
`std::sqrt` enters as a function with `sqrt 0 = 0`. -/
theorem statistics_empty (m : IntensityImage) (mem : Heap α) (sqrt : α → α)
    (hsqrt : sqrt 0 = 0) (h : m.elems = 0) :
    m.sum mem = some 0 ∧ m.mean mem = some 0 ∧ m.variance mem = some 0 ∧
    m.stddev sqrt mem = some 0 ∧ m.max mem = some 0 ∧ m.min mem = some 0 ∧
    m.distribution mem = some (0, 0) := by
  have h0 : (m.d.width * m.d.height) % SIZE_MODULUS = 0 := h
  have hdist : m.distribution mem = some (0, 0) := by simp [distribution, h]
  have hvar : m.variance mem = some 0 := by simp [variance, hdist]
  refine ⟨?_, ?_, hvar, ?_, ?_, ?_, hdist⟩
  · simp [sum, h0, sumLoop]
  · simp [mean, h]
  · simp [stddev, hvar, hsqrt]
  · simp [IntensityImage.max, h]
  · simp [IntensityImage.min, h]

/-- C9, over the reals with the real square root, for the default-constructed
object. -/
theorem statistics_empty_witness :
    (create : IntensityImage).elems = 0 ∧
    create.sum ([] : Heap ℝ) = some 0 ∧ create.mean ([] : Heap ℝ) = some 0 ∧
    create.variance ([] : Heap ℝ) = some 0 ∧ create.stddev Real.sqrt ([] : Heap ℝ) = some 0 ∧
    create.max ([] : Heap ℝ) = some 0 ∧ create.min ([] : Heap ℝ) = some 0 ∧
    create.distribution ([] : Heap ℝ) = some (0, 0) :=
  ⟨by decide, statistics_empty create ([] : Heap ℝ) Real.sqrt Real.sqrt_zero (by decide)⟩

theorem sumLoop_eq (mem : Heap α) (p : Nat) (buf : List α) (hb : mem.buffer (some p) = some buf) :
    ∀ (k i : Nat) (acc : α), i + k ≤ buf.length →
      sumLoop mem (some p) k i acc = some (acc + ((buf.drop i).take k).sum) := by
  intro k
  induction k with
  | zero => intro i acc _; simp [sumLoop]
  | succ k ih =>
    intro i acc hik
    have hi : i < buf.length := by omega
    rw [sumLoop, Heap.read_eq i hb, List.getElem?_eq_getElem hi]
    simp only
    rw [ih (i + 1) _ (by omega), List.drop_eq_getElem_cons hi, List.take_succ_cons,
      List.sum_cons, add_assoc]

theorem varLoop_eq (mem : Heap α) (p : Nat) (buf : List α) (μ : α)
    (hb : mem.buffer (some p) = some buf) :
    ∀ (k i : Nat) (acc : α), i + k ≤ buf.length →
      varLoop mem (some p) μ k i acc
        = some (acc + (((buf.drop i).take k).map (fun x => (x - μ) ^ 2)).sum) := by
  intro k
  induction k with
  | zero => intro i acc _; simp [varLoop]
  | succ k ih =>
    intro i acc hik
    have hi : i < buf.length := by omega
    rw [varLoop, Heap.read_eq i hb, List.getElem?_eq_getElem hi]
    simp only
    rw [ih (i + 1) _ (by omega), List.drop_eq_getElem_cons hi, List.take_succ_cons,
      List.map_cons, List.sum_cons, add_assoc]

/-- On a non-empty valid object `sum()` is the sum of the element sequence. -/
theorem sum_eq {m : IntensityImage} {mem : Heap α} (hv : m.Valid mem) (hne : m.elems ≠ 0) :
    ∃ p xs, m.d.data = some p ∧ mem.buffer (some p) = some xs ∧ m.values mem = some xs ∧
      xs.length = m.elems ∧ m.sum mem = some xs.sum := by
  cases hd : m.d.data with
  | none =>
    rcases hv with ⟨_, hw, _⟩ | ⟨_, _, _, hb⟩
    · simp [elems, hw] at hne
    · simp [hd, Heap.buffer] at hb
  | some p =>
    obtain ⟨xs, hb, hlen, hfit, _, _, hval⟩ := hv.values hd
    have hmod : (m.d.width * m.d.height) % SIZE_MODULUS = xs.length := by
      rw [hlen]; exact Nat.mod_eq_of_lt hfit
    refine ⟨p, xs, rfl, hb, hval, by rw [elems, hmod], ?_⟩
    rw [sum, hd, hmod, sumLoop_eq mem p xs hb _ 0 0 (by simp)]
    simp

/-- C10: for a non-empty matrix that satisfies the data model, with elements `xs`
and `n = elems()`, `mean()` returns `xs.sum / n`, `distribution` stores `mean()` in
`meanValue` and the population variance `(1 / n) * Σ (x - mean()) ^ 2` (divisor
`n`) in `variance`, and `variance()` returns that second output. -/
theorem distribution_population_variance (m : IntensityImage) (mem : Heap α)
    (hv : m.Valid mem) (hne : m.elems ≠ 0) :
    ∃ xs μ, m.values mem = some xs ∧ xs.length = m.elems ∧
      μ = xs.sum / (m.elems : α) ∧ m.mean mem = some μ ∧
      m.distribution mem
        = some (μ, (1 / (m.elems : α)) * (xs.map (fun x => (x - μ) ^ 2)).sum) ∧
      m.variance mem = some ((1 / (m.elems : α)) * (xs.map (fun x => (x - μ) ^ 2)).sum) ∧
      m.variance mem = (m.distribution mem).map Prod.snd := by
  obtain ⟨p, xs, hd, hb, hval, hlen, hsum⟩ := sum_eq hv hne
  have hmean : m.mean mem = some (xs.sum / (m.elems : α)) := by
    simp only [mean, hne, if_false, hsum]
  have hdist : m.distribution mem = some (xs.sum / (m.elems : α),
      (1 / (m.elems : α)) * (xs.map (fun x => (x - xs.sum / (m.elems : α)) ^ 2)).sum) := by
    simp only [distribution, hne, if_false, hmean, hd]
    rw [varLoop_eq mem p xs _ hb _ 0 0 (by rw [hlen]; simp)]
    simp only [List.drop_zero, ← hlen, List.take_length, zero_add, Option.some.injEq,
      Prod.mk.injEq, true_and]
    rw [div_eq_mul_inv, one_div, mul_comm]
  refine ⟨xs, xs.sum / (m.elems : α), hval, hlen, rfl, hmean, hdist, ?_, ?_⟩
  · simp only [variance, hdist]
  · simp only [variance, hdist, Option.map_some']

/-- C10, on the sample object. -/
theorem distribution_population_variance_witness :
    sampleImage.Valid sampleHeap ∧ sampleImage.elems ≠ 0 ∧
    ∃ xs μ, sampleImage.values sampleHeap = some xs ∧ xs.length = sampleImage.elems ∧
      μ = xs.sum / (sampleImage.elems : ℚ) ∧ sampleImage.mean sampleHeap = some μ ∧
      sampleImage.distribution sampleHeap
        = some (μ, (1 / (sampleImage.elems : ℚ)) * (xs.map (fun x => (x - μ) ^ 2)).sum) ∧
      sampleImage.variance sampleHeap
        = some ((1 / (sampleImage.elems : ℚ)) * (xs.map (fun x => (x - μ) ^ 2)).sum) ∧
      sampleImage.variance sampleHeap = (sampleImage.distribution sampleHeap).map Prod.snd :=
  ⟨by decide, by decide,
    distribution_population_variance sampleImage sampleHeap (by decide) (by decide)⟩

end Statistics

end IntensityImage

end Core

/-! ## Statistics of an object whose array has `elems()` elements -/

namespace Core

namespace IntensityImage

section BufferStatistics

variable {α : Type} [LinearOrderedField α]

theorem sum_of_buffer {m : IntensityImage} {mem : Heap α} {p : Nat} {xs : List α}
    (hd : m.d.data = some p) (hb : mem.buffer (some p) = some xs) (hlen : xs.length = m.elems) :
    m.sum mem = some xs.sum := by
  have hmod : (m.d.width * m.d.height) % SIZE_MODULUS = xs.length := hlen.symm
  rw [sum, hd, hmod, sumLoop_eq mem p xs hb _ 0 0 (by simp)]
  simp

theorem mean_of_buffer {m : IntensityImage} {mem : Heap α} {p : Nat} {xs : List α}
    (hd : m.d.data = some p) (hb : mem.buffer (some p) = some xs) (hlen : xs.length = m.elems)
    (hne : m.elems ≠ 0) : m.mean mem = some (xs.sum / (m.elems : α)) := by
  simp only [mean, hne, if_false, sum_of_buffer hd hb hlen]

theorem distribution_of_buffer {m : IntensityImage} {mem : Heap α} {p : Nat} {xs : List α}
    (hd : m.d.data = some p) (hb : mem.buffer (some p) = some xs) (hlen : xs.length = m.elems)
    (hne : m.elems ≠ 0) :
    m.distribution mem = some (xs.sum / (m.elems : α),
      (xs.map (fun x => (x - xs.sum / (m.elems : α)) ^ 2)).sum / (m.elems : α)) := by
  simp only [distribution, hne, if_false, mean_of_buffer hd hb hlen hne, hd]
  rw [varLoop_eq mem p xs _ hb _ 0 0 (by rw [hlen]; simp)]
  simp only [List.drop_zero, ← hlen, List.take_length, zero_add]

theorem variance_of_buffer {m : IntensityImage} {mem : Heap α} {p : Nat} {xs : List α}
    (hd : m.d.data = some p) (hb : mem.buffer (some p) = some xs) (hlen : xs.length = m.elems)
    (hne : m.elems ≠ 0) :
    m.variance mem
      = some ((xs.map (fun x => (x - xs.sum / (m.elems : α)) ^ 2)).sum / (m.elems : α)) := by
  simp only [variance, distribution_of_buffer hd hb hlen hne]

theorem maxLoop_spec (mem : Heap α) (p : Nat) (buf : List α) (hb : mem.buffer (some p) = some buf) :
    ∀ (k i : Nat) (acc : α), i + k ≤ buf.length →
      ∃ r, maxLoop mem (some p) k i acc = some r ∧ (r = acc ∨ r ∈ (buf.drop i).take k) ∧
        acc ≤ r ∧ ∀ x ∈ (buf.drop i).take k, x ≤ r := by
  intro k
  induction k with
  | zero => intro i acc _; exact ⟨acc, by simp [maxLoop]⟩
  | succ k ih =>
    intro i acc hik
    have hi : i < buf.length := by omega
    obtain ⟨r, hr, hmem, hle, hall⟩ := ih (i + 1) (if buf[i] > acc then buf[i] else acc) (by omega)
    refine ⟨r, ?_, ?_, ?_, ?_⟩
    · rw [maxLoop, Heap.read_eq i hb, List.getElem?_eq_getElem hi]
      exact hr
    · rw [List.drop_eq_getElem_cons hi, List.take_succ_cons]
      rcases hmem with h | h
      · by_cases hc : buf[i] > acc
        · right; rw [h, if_pos hc]; exact List.mem_cons_self _ _
        · left; rw [h, if_neg hc]
      · right; exact List.mem_cons_of_mem _ h
    · by_cases hc : buf[i] > acc
      · rw [if_pos hc] at hle; exact le_trans (le_of_lt hc) hle
      · rw [if_neg hc] at hle; exact hle
    · intro x hx
      rw [List.drop_eq_getElem_cons hi, List.take_succ_cons] at hx
      rcases List.mem_cons.mp hx with h | h
      · rw [h]
        by_cases hc : buf[i] > acc
        · rw [if_pos hc] at hle; exact hle
        · rw [if_neg hc] at hle; exact le_trans (not_lt.mp hc) hle
      · exact hall x h

theorem minLoop_spec (mem : Heap α) (p : Nat) (buf : List α) (hb : mem.buffer (some p) = some buf) :
    ∀ (k i : Nat) (acc : α), i + k ≤ buf.length →
      ∃ r, minLoop mem (some p) k i acc = some r ∧ (r = acc ∨ r ∈ (buf.drop i).take k) ∧
        r ≤ acc ∧ ∀ x ∈ (buf.drop i).take k, r ≤ x := by
  intro k
  induction k with
  | zero => intro i acc _; exact ⟨acc, by simp [minLoop]⟩
  | succ k ih =>
    intro i acc hik
    have hi : i < buf.length := by omega
    obtain ⟨r, hr, hmem, hle, hall⟩ := ih (i + 1) (if buf[i] < acc then buf[i] else acc) (by omega)
    refine ⟨r, ?_, ?_, ?_, ?_⟩
    · rw [minLoop, Heap.read_eq i hb, List.getElem?_eq_getElem hi]
      exact hr
    · rw [List.drop_eq_getElem_cons hi, List.take_succ_cons]
      rcases hmem with h | h
      · by_cases hc : buf[i] < acc
        · right; rw [h, if_pos hc]; exact List.mem_cons_self _ _
        · left; rw [h, if_neg hc]
      · right; exact List.mem_cons_of_mem _ h
    · by_cases hc : buf[i] < acc
      · rw [if_pos hc] at hle; exact le_trans hle (le_of_lt hc)
      · rw [if_neg hc] at hle; exact hle
    · intro x hx
      rw [List.drop_eq_getElem_cons hi, List.take_succ_cons] at hx
      rcases List.mem_cons.mp hx with h | h
      · rw [h]
        by_cases hc : buf[i] < acc
        · rw [if_pos hc] at hle; exact hle
        · rw [if_neg hc] at hle; exact le_trans hle (not_lt.mp hc)
      · exact hall x h

/-- A non-empty list is its head followed by the next `length - 1` elements. -/
theorem head_cons_rest {β : Type} (xs : List β) (h : 0 < xs.length) :
    xs = xs[0] :: (xs.drop 1).take (xs.length - 1) := by
  have h1 : (xs.drop 1).take (xs.length - 1) = xs.drop 1 :=
    List.take_of_length_le (by simp)
  rw [h1, ← List.drop_eq_getElem_cons h, List.drop_zero]

theorem max_of_buffer {m : IntensityImage} {mem : Heap α} {p : Nat} {xs : List α}
    (hd : m.d.data = some p) (hb : mem.buffer (some p) = some xs) (hlen : xs.length = m.elems)
    (hne : m.elems ≠ 0) :
    ∃ r, m.max mem = some r ∧ r ∈ xs ∧ ∀ x ∈ xs, x ≤ r := by
  have hpos : 0 < xs.length := by omega
  obtain ⟨r, hr, hmem, hle, hall⟩ := maxLoop_spec mem p xs hb (xs.length - 1) 1 xs[0] (by omega)
  have hsplit := head_cons_rest xs hpos
  refine ⟨r, ?_, ?_, ?_⟩
  · simp only [IntensityImage.max, hd, Heap.read_eq 0 hb, List.getElem?_eq_getElem hpos, ← hlen]
    rw [if_neg (by omega)]
    exact hr
  · rw [hsplit]
    rcases hmem with h | h
    · rw [h]; exact List.mem_cons_self _ _
    · exact List.mem_cons_of_mem _ h
  · intro x hx
    rw [hsplit] at hx
    rcases List.mem_cons.mp hx with h | h
    · rw [h]; exact hle
    · exact hall x h

theorem min_of_buffer {m : IntensityImage} {mem : Heap α} {p : Nat} {xs : List α}
    (hd : m.d.data = some p) (hb : mem.buffer (some p) = some xs) (hlen : xs.length = m.elems)
    (hne : m.elems ≠ 0) :
    ∃ r, m.min mem = some r ∧ r ∈ xs ∧ ∀ x ∈ xs, r ≤ x := by
  have hpos : 0 < xs.length := by omega
  obtain ⟨r, hr, hmem, hle, hall⟩ := minLoop_spec mem p xs hb (xs.length - 1) 1 xs[0] (by omega)
  have hsplit := head_cons_rest xs hpos
  refine ⟨r, ?_, ?_, ?_⟩
  · simp only [IntensityImage.min, hd, Heap.read_eq 0 hb, List.getElem?_eq_getElem hpos, ← hlen]
    rw [if_neg (by omega)]
    exact hr
  · rw [hsplit]
    rcases hmem with h | h
    · rw [h]; exact List.mem_cons_self _ _
    · exact List.mem_cons_of_mem _ h
  · intro x hx
    rw [hsplit] at hx
    rcases List.mem_cons.mp hx with h | h
    · rw [h]; exact hle
    · exact hall x h

end BufferStatistics

end IntensityImage

end Core

/-! ## Elements and positions -/

namespace Core

namespace IntensityImage

/-- On a valid object the elements of the array are exactly what `getValueAt`
returns at the in-range positions. -/
theorem mem_values_iff {α : Type} {m : IntensityImage} {mem : Heap α} (hv : m.Valid mem)
    {xs : List α} (hval : m.values mem = some xs) (x : α) :
    x ∈ xs ↔ ∃ row col, row < m.height ∧ col < m.width ∧ m.getValueAt row col mem = .ok x := by
  cases hd : m.d.data with
  | none =>
    rcases hv with ⟨_, hw, hh⟩ | ⟨_, _, _, hb⟩
    · simp only [values, hd] at hval
      injection hval with hval
      subst hval
      simp [width, height, hw, hh]
    · simp [hd, Heap.buffer] at hb
  | some p =>
    obtain ⟨buf, hb, hlen, hfit, hw, hh, hval2⟩ := hv.values hd
    rw [hval] at hval2
    injection hval2 with hval2
    subst hval2
    constructor
    · intro hx
      obtain ⟨i, hi, hxi⟩ := List.getElem_of_mem hx
      have hrow : i % m.d.height < m.d.height := Nat.mod_lt _ hh
      have hcol : i / m.d.height < m.d.width := by
        apply Nat.div_lt_of_lt_mul
        rw [Nat.mul_comm, ← hlen]
        exact hi
      have hoff : i % m.d.height + i / m.d.height * m.d.height = i := by
        rw [Nat.mul_comm]; exact Nat.mod_add_div i m.d.height
      obtain ⟨y, hy, hget⟩ := getValueAt_eq hd hb hlen hfit hrow hcol
      rw [hoff, List.getElem?_eq_getElem hi, hxi] at hy
      injection hy with hy
      exact ⟨i % m.d.height, i / m.d.height, hrow, hcol, by rw [hget, hy]⟩
    · rintro ⟨row, col, hr, hc, hget⟩
      obtain ⟨y, hy, hget2⟩ := getValueAt_eq hd hb hlen hfit hr hc
      rw [hget2] at hget
      injection hget with hget
      subst hget
      exact List.getElem?_mem hy

section ExtremalStatistics

variable {α : Type} [LinearOrderedField α]

/-- C11: for a non-empty matrix that satisfies the data model, `sum()` and `mean()`
return, `mean() == sum() / elems()` and `mean() * elems() == sum()`. -/
theorem mean_eq_sum_div (m : IntensityImage) (mem : Heap α) (hv : m.Valid mem)
    (hne : m.elems ≠ 0) :
    ∃ s μ, m.sum mem = some s ∧ m.mean mem = some μ ∧ μ = s / (m.elems : α) ∧
      μ * (m.elems : α) = s := by
  obtain ⟨p, xs, hd, hb, _, hlen, hsum⟩ := sum_eq hv hne
  have hn : (m.elems : α) ≠ 0 := Nat.cast_ne_zero.mpr hne
  exact ⟨xs.sum, xs.sum / (m.elems : α), hsum, mean_of_buffer hd hb hlen hne, rfl,
    div_mul_cancel₀ _ hn⟩

/-- C11, on the sample object: the sum is 21 and the mean 7 / 2. -/
theorem mean_eq_sum_div_witness :
    sampleImage.Valid sampleHeap ∧ sampleImage.elems = 6 ∧
    sampleImage.sum sampleHeap = some 21 ∧
    ∃ s μ, sampleImage.sum sampleHeap = some s ∧ sampleImage.mean sampleHeap = some μ ∧
      μ = s / (sampleImage.elems : ℚ) ∧ μ * (sampleImage.elems : ℚ) = s :=
  ⟨by decide, by decide, by
    simp [sum, sampleImage, sampleHeap, sumLoop, Heap.read, Heap.buffer]; norm_num,
    mean_eq_sum_div sampleImage sampleHeap (by decide) (by decide)⟩

/-- C12: for a non-empty matrix that satisfies the data model, `max()` and `min()`
return; `max()` is an element of the matrix (the value at some in-range position)
and no element is greater, `min()` is an element and no element is smaller. -/
theorem max_min_extremal (m : IntensityImage) (mem : Heap α) (hv : m.Valid mem)
    (hne : m.elems ≠ 0) :
    ∃ xs hi lo, m.values mem = some xs ∧ m.max mem = some hi ∧ m.min mem = some lo ∧
      hi ∈ xs ∧ (∀ x ∈ xs, x ≤ hi) ∧ lo ∈ xs ∧ (∀ x ∈ xs, lo ≤ x) ∧
      (∃ row col, row < m.height ∧ col < m.width ∧ m.getValueAt row col mem = .ok hi) ∧
      (∃ row col, row < m.height ∧ col < m.width ∧ m.getValueAt row col mem = .ok lo) ∧
      (∀ row col x, m.getValueAt row col mem = .ok x → lo ≤ x ∧ x ≤ hi) := by
  obtain ⟨p, xs, hd, hb, hval, hlen, _⟩ := sum_eq hv hne
  obtain ⟨hi, hmax, hhi, hle⟩ := max_of_buffer hd hb hlen hne
  obtain ⟨lo, hmin, hlo, hge⟩ := min_of_buffer hd hb hlen hne
  refine ⟨xs, hi, lo, hval, hmax, hmin, hhi, hle, hlo, hge,
    (mem_values_iff hv hval hi).mp hhi, (mem_values_iff hv hval lo).mp hlo, ?_⟩
  intro row col x hget
  have hin : row < m.height ∧ col < m.width := by
    by_contra hout
    have hoor : row ≥ m.height ∨ col ≥ m.width := by omega
    have hthrow : m.getValueAt row col mem = .error .out_of_range := by
      simp only [width, height] at hoor
      simp [getValueAt, call_const, hoor]
    rw [hthrow] at hget
    cases hget
  have hx : x ∈ xs := (mem_values_iff hv hval x).mpr ⟨row, col, hin.1, hin.2, hget⟩
  exact ⟨hge x hx, hle x hx⟩

/-- C12, on the sample object. -/
theorem max_min_extremal_witness :
    sampleImage.Valid sampleHeap ∧ sampleImage.elems ≠ 0 ∧
    ∃ xs hi lo, sampleImage.values sampleHeap = some xs ∧ sampleImage.max sampleHeap = some hi ∧
      sampleImage.min sampleHeap = some lo ∧
      hi ∈ xs ∧ (∀ x ∈ xs, x ≤ hi) ∧ lo ∈ xs ∧ (∀ x ∈ xs, lo ≤ x) ∧
      (∃ row col, row < sampleImage.height ∧ col < sampleImage.width ∧
        sampleImage.getValueAt row col sampleHeap = .ok hi) ∧
      (∃ row col, row < sampleImage.height ∧ col < sampleImage.width ∧
        sampleImage.getValueAt row col sampleHeap = .ok lo) ∧
      (∀ row col x, sampleImage.getValueAt row col sampleHeap = .ok x → lo ≤ x ∧ x ≤ hi) :=
  ⟨by decide, by decide, max_min_extremal sampleImage sampleHeap (by decide) (by decide)⟩

end ExtremalStatistics

end IntensityImage

end Core

/-! ## The sum over positions -/

namespace Core

namespace IntensityImage

section PositionSum

variable {α : Type} [LinearOrderedField α]

/-- The sum of a list is the sum of its elements by index. -/
theorem list_sum_eq_range (xs : List α) :
    xs.sum = ∑ i in Finset.range xs.length, xs.getD i 0 := by
  induction xs with
  | nil => simp
  | cons x xs ih =>
    rw [List.sum_cons, List.length_cons, Finset.sum_range_succ', ih]
    simp [add_comm]

/-- A sum over `w * h` indices, column by column. -/
theorem sum_range_columns (g : Nat → α) (w h : Nat) :
    ∑ i in Finset.range (w * h), g i
      = ∑ col in Finset.range w, ∑ row in Finset.range h, g (row + col * h) := by
  induction w with
  | zero => simp
  | succ w ih =>
    rw [Finset.sum_range_succ, ← ih, Nat.succ_mul, Finset.sum_range_add]
    congr 1
    apply Finset.sum_congr rfl
    intro row _
    rw [Nat.add_comm]

/-- On a valid object, empty or not, `sum()` is the sum of the element sequence. -/
theorem sum_valid {m : IntensityImage} {mem : Heap α} (hv : m.Valid mem) :
    ∃ xs, m.values mem = some xs ∧ xs.length = m.d.width * m.d.height ∧
      m.d.width * m.d.height < SIZE_MODULUS ∧ m.sum mem = some xs.sum := by
  cases hd : m.d.data with
  | none =>
    rcases hv with ⟨_, hw, hh⟩ | ⟨_, _, _, hb⟩
    · exact ⟨[], by simp [values, hd], by simp [hw], by simp [hw],
        by simp [sum, hw, sumLoop]⟩
    · simp [hd, Heap.buffer] at hb
  | some p =>
    obtain ⟨xs, hb, hlen, hfit, hw, hh, hval⟩ := hv.values hd
    have hlen2 : xs.length = m.elems := by rw [hlen, elems, Nat.mod_eq_of_lt hfit]
    exact ⟨xs, hval, hlen, hfit, sum_of_buffer hd hb hlen2⟩

/-- C13, amended: for a matrix that satisfies the data model (an array of exactly
`width() * height()` elements, a product that fits `size_t`), `sum()` is the sum over all
`col < width()` and `row < height()` of `getValueAt(row, col)`; and any matrix
that satisfies the data model and has the same element sequence, whatever its
shape, has the same `sum()`. -/
theorem sum_eq_sum_positions (m : IntensityImage) (mem : Heap α) (hv : m.Valid mem) :
    (∃ f : Nat → Nat → α,
      (∀ row col, row < m.height → col < m.width → m.getValueAt row col mem = .ok (f row col)) ∧
      m.sum mem
        = some (∑ col in Finset.range m.width, ∑ row in Finset.range m.height, f row col)) ∧
    (∀ (m2 : IntensityImage) (mem2 : Heap α), m2.Valid mem2 →
      m2.values mem2 = m.values mem → m2.sum mem2 = m.sum mem) := by
  obtain ⟨xs, hval, hlen, hfit, hsum⟩ := sum_valid hv
  constructor
  · refine ⟨fun row col => xs.getD (row + col * m.d.height) 0, ?_, ?_⟩
    · intro row col hr hc
      obtain ⟨p, buf, hd, hb, hblen, _⟩ := hv.buffer hr
      obtain ⟨buf2, hb2, _, _, _, _, hval2⟩ := hv.values hd
      rw [hval] at hval2
      rw [hb] at hb2
      injection hval2 with hval2
      injection hb2 with hb2
      subst hval2 hb2
      obtain ⟨y, hy, hget⟩ := getValueAt_eq hd hb hblen hfit hr hc
      rw [hget]
      simp only [List.getD_eq_getElem?_getD, hy, Option.getD_some]
    · rw [hsum, list_sum_eq_range, hlen]
      simp only [width, height]
      rw [sum_range_columns]
  · intro m2 mem2 hv2 heq
    obtain ⟨ys, hval2, _, _, hsum2⟩ := sum_valid hv2
    rw [hval, hval2] at heq
    injection heq with heq
    rw [hsum, hsum2, heq]

/-- C13, amended, on the sample array seen as 2 columns of 3 rows and as 3 columns of 2
rows. -/
theorem sum_eq_sum_positions_witness :
    sampleImage.Valid sampleHeap ∧
    (IntensityImage.mk ⟨3, 2, some 0⟩).Valid sampleHeap ∧
    (IntensityImage.mk ⟨3, 2, some 0⟩).sum sampleHeap = sampleImage.sum sampleHeap :=
  ⟨by decide, by decide,
    (sum_eq_sum_positions sampleImage sampleHeap (by decide)).2 (IntensityImage.mk ⟨3, 2, some 0⟩)
      sampleHeap (by decide) (by rfl)⟩

end PositionSum

end IntensityImage

end Core

/-! ## The square root of the variance, and a concrete scenario -/

namespace Core

namespace IntensityImage

/-- C14: over the reals, with the real square root for `std::sqrt`, for every
matrix that satisfies the data model (empty or not) `variance()` and `stddev()`
return, `variance() >= 0`, `stddev()` is the square root of `variance()`,
`stddev() >= 0` and `stddev() * stddev() == variance()`. -/
theorem stddev_sqrt_variance (m : IntensityImage) (mem : Heap ℝ) (hv : m.Valid mem) :
    ∃ v s, m.variance mem = some v ∧ m.stddev Real.sqrt mem = some s ∧
      s = Real.sqrt v ∧ 0 ≤ v ∧ 0 ≤ s ∧ s * s = v := by
  have hkey : ∃ v, m.variance mem = some v ∧ 0 ≤ v := by
    by_cases hne : m.elems = 0
    · exact ⟨0, by simp [variance, distribution, hne], le_refl 0⟩
    · obtain ⟨p, xs, hd, hb, _, hlen, _⟩ := sum_eq hv hne
      refine ⟨_, variance_of_buffer hd hb hlen hne, ?_⟩
      apply div_nonneg
      · apply List.sum_nonneg
        intro x hx
        obtain ⟨y, _, hy⟩ := List.mem_map.mp hx
        rw [← hy]
        exact sq_nonneg _
      · exact Nat.cast_nonneg _
  obtain ⟨v, hvar, hv0⟩ := hkey
  exact ⟨v, Real.sqrt v, hvar, by simp only [stddev, hvar], rfl, hv0, Real.sqrt_nonneg v,
    Real.mul_self_sqrt hv0⟩

/-- C14, for the 2 x 3 object over the array 1 .. 6 of reals. -/
theorem stddev_sqrt_variance_witness :
    (IntensityImage.mk ⟨2, 3, some 0⟩).Valid ([some [1, 2, 3, 4, 5, 6]] : Heap ℝ) ∧
    ∃ v s, (IntensityImage.mk ⟨2, 3, some 0⟩).variance ([some [1, 2, 3, 4, 5, 6]] : Heap ℝ) = some v ∧
      (IntensityImage.mk ⟨2, 3, some 0⟩).stddev Real.sqrt ([some [1, 2, 3, 4, 5, 6]] : Heap ℝ)
        = some s ∧
      s = Real.sqrt v ∧ 0 ≤ v ∧ 0 ≤ s ∧ s * s = v :=
  ⟨by decide, stddev_sqrt_variance (IntensityImage.mk ⟨2, 3, some 0⟩)
    ([some [1, 2, 3, 4, 5, 6]] : Heap ℝ) (by decide)⟩

/-- C15 (concrete scenario): `IntensityImage(2, 3, data)` with data 1, 2, 3, 4, 5, 6
has column 0 = 1, 2, 3 and column 1 = 4, 5, 6, so `getValueAt(0, 0) == 1`,
`getValueAt(2, 0) == 3`, `getValueAt(0, 1) == 4`; `sum() == 21`, `mean() == 7/2`,
`variance() == 35/12`, `max() == 6` and `min() == 1`. -/
theorem concrete_scenario :
    create_data 2 3 (some 0) sampleHeap = some (scenarioImage, scenarioHeap) ∧
    (scenarioImage.getValueAt 0 0 scenarioHeap = .ok 1 ∧
      scenarioImage.getValueAt 1 0 scenarioHeap = .ok 2 ∧
      scenarioImage.getValueAt 2 0 scenarioHeap = .ok 3 ∧
      scenarioImage.getValueAt 0 1 scenarioHeap = .ok 4 ∧
      scenarioImage.getValueAt 1 1 scenarioHeap = .ok 5 ∧
      scenarioImage.getValueAt 2 1 scenarioHeap = .ok 6) ∧
    scenarioImage.sum scenarioHeap = some 21 ∧
    scenarioImage.mean scenarioHeap = some (7 / 2) ∧
    scenarioImage.variance scenarioHeap = some (35 / 12) ∧
    scenarioImage.max scenarioHeap = some 6 ∧
    scenarioImage.min scenarioHeap = some 1 := by
  have hsum : scenarioImage.sum scenarioHeap = some 21 := by
    simp [sum, scenarioImage, scenarioHeap, sumLoop, Heap.read, Heap.buffer]
    norm_num
  have hmean : scenarioImage.mean scenarioHeap = some (7 / 2) := by
    have he : scenarioImage.elems = 6 := by decide
    simp only [mean, hsum, he]
    norm_num
  refine ⟨by rfl, ⟨by rfl, by rfl, by rfl, by rfl, by rfl, by rfl⟩, hsum, hmean, ?_, ?_, ?_⟩
  · have he : scenarioImage.elems = 6 := by decide
    simp only [variance, distribution, hmean, he]
    simp [scenarioImage, scenarioHeap, varLoop, Heap.read, Heap.buffer]
    norm_num
  · have he : scenarioImage.elems = 6 := by decide
    simp only [IntensityImage.max, he]
    norm_num [scenarioImage, scenarioHeap, maxLoop, Heap.read, Heap.buffer]
  · have he : scenarioImage.elems = 6 := by decide
    simp only [IntensityImage.min, he]
    norm_num [scenarioImage, scenarioHeap, minLoop, Heap.read, Heap.buffer]

end IntensityImage

end Core

/-! ## Mean between the extremes, and zero variance -/

namespace Core

namespace IntensityImage

section Spread

variable {α : Type} [LinearOrderedField α]

/-- The mean of a non-empty list lies between a lower and an upper bound of it. -/
theorem mean_between (xs : List α) (lo hi : α) (hpos : 0 < xs.length)
    (hlo : ∀ x ∈ xs, lo ≤ x) (hhi : ∀ x ∈ xs, x ≤ hi) :
    lo ≤ xs.sum / (xs.length : α) ∧ xs.sum / (xs.length : α) ≤ hi := by
  have hn : (0 : α) < (xs.length : α) := Nat.cast_pos.mpr hpos
  have h1 := List.card_nsmul_le_sum xs lo hlo
  have h2 := List.sum_le_card_nsmul xs hi hhi
  rw [nsmul_eq_mul] at h1 h2
  constructor
  · rw [le_div_iff₀ hn, mul_comm]; exact h1
  · rw [div_le_iff₀ hn, mul_comm]; exact h2

/-- The mean of a non-empty list whose elements all equal `c` is `c`. -/
theorem mean_constant (xs : List α) (c : α) (hpos : 0 < xs.length) (hc : ∀ x ∈ xs, x = c) :
    xs.sum / (xs.length : α) = c := by
  have hn : (xs.length : α) ≠ 0 := Nat.cast_ne_zero.mpr (by omega)
  rw [List.sum_eq_card_nsmul xs c hc, nsmul_eq_mul, mul_div_cancel_left₀ _ hn]

/-- A sum of squared deviations is zero exactly when every element is the centre. -/
theorem sum_sq_eq_zero_iff (xs : List α) (μ : α) :
    (xs.map (fun x => (x - μ) ^ 2)).sum = 0 ↔ ∀ x ∈ xs, x = μ := by
  induction xs with
  | nil => simp
  | cons a xs ih =>
    have hs : 0 ≤ (xs.map (fun x => (x - μ) ^ 2)).sum := by
      apply List.sum_nonneg
      intro x hx
      obtain ⟨y, _, hy⟩ := List.mem_map.mp hx
      rw [← hy]
      exact sq_nonneg _
    rw [List.map_cons, List.sum_cons, add_eq_zero_iff_of_nonneg (sq_nonneg _) hs, ih]
    constructor
    · rintro ⟨ha, hxs⟩ x hx
      rcases List.mem_cons.mp hx with h | h
      · rw [h]; exact sub_eq_zero.mp (pow_eq_zero_iff (by decide) |>.mp ha)
      · exact hxs x h
    · intro h
      refine ⟨?_, fun x hx => h x (List.mem_cons_of_mem _ hx)⟩
      rw [h a (List.mem_cons_self _ _), sub_self]
      simp

/-- C19: for a non-empty matrix that satisfies the data model, `min()`, `mean()` and
`max()` return with `min() <= mean() <= max()`, and `min() == max()` exactly when
all elements are equal. -/
theorem min_le_mean_le_max (m : IntensityImage) (mem : Heap α) (hv : m.Valid mem)
    (hne : m.elems ≠ 0) :
    ∃ xs lo μ hi, m.values mem = some xs ∧ m.min mem = some lo ∧ m.mean mem = some μ ∧
      m.max mem = some hi ∧ lo ≤ μ ∧ μ ≤ hi ∧ (lo = hi ↔ ∀ x ∈ xs, ∀ y ∈ xs, x = y) := by
  obtain ⟨p, xs, hd, hb, hval, hlen, _⟩ := sum_eq hv hne
  obtain ⟨hi, hmax, hhi, hle⟩ := max_of_buffer hd hb hlen hne
  obtain ⟨lo, hmin, hlo, hge⟩ := min_of_buffer hd hb hlen hne
  have hpos : 0 < xs.length := by omega
  have hbetween := mean_between xs lo hi hpos hge hle
  rw [hlen] at hbetween
  refine ⟨xs, lo, _, hi, hval, hmin, mean_of_buffer hd hb hlen hne, hmax, hbetween.1,
    hbetween.2, ?_⟩
  constructor
  · intro heq x hx y hy
    have hx1 : x = lo := le_antisymm (heq ▸ hle x hx) (hge x hx)
    have hy1 : y = lo := le_antisymm (heq ▸ hle y hy) (hge y hy)
    rw [hx1, hy1]
  · intro hall
    exact hall lo hlo hi hhi

/-- C19, on the sample object. -/
theorem min_le_mean_le_max_witness :
    sampleImage.Valid sampleHeap ∧ sampleImage.elems ≠ 0 ∧
    ∃ xs lo μ hi, sampleImage.values sampleHeap = some xs ∧ sampleImage.min sampleHeap = some lo ∧
      sampleImage.mean sampleHeap = some μ ∧ sampleImage.max sampleHeap = some hi ∧
      lo ≤ μ ∧ μ ≤ hi ∧ (lo = hi ↔ ∀ x ∈ xs, ∀ y ∈ xs, x = y) :=
  ⟨by decide, by decide, min_le_mean_le_max sampleImage sampleHeap (by decide) (by decide)⟩

/-- The variance of an object whose array has `elems()` elements is zero exactly
when all elements are equal. -/
theorem variance_zero_of_buffer {m : IntensityImage} {mem : Heap α} {p : Nat} {xs : List α}
    (hd : m.d.data = some p) (hb : mem.buffer (some p) = some xs) (hlen : xs.length = m.elems)
    (hne : m.elems ≠ 0) :
    ∃ v, m.variance mem = some v ∧ (v = 0 ↔ ∀ x ∈ xs, ∀ y ∈ xs, x = y) := by
  have hn : (m.elems : α) ≠ 0 := Nat.cast_ne_zero.mpr hne
  have hpos : 0 < xs.length := by omega
  refine ⟨_, variance_of_buffer hd hb hlen hne, ?_⟩
  rw [div_eq_zero_iff, sum_sq_eq_zero_iff]
  constructor
  · rintro (h | h)
    · intro x hx y hy
      rw [h x hx, h y hy]
    · exact absurd h hn
  · intro hall
    left
    have hc : ∀ x ∈ xs, x = xs[0] := fun x hx => hall x hx xs[0] (List.getElem_mem _)
    intro x hx
    rw [← hlen, mean_constant xs xs[0] hpos hc]
    exact hc x hx

end Spread

end IntensityImage

end Core

/-! ## Zero variance and the fill constructor -/

namespace Core

namespace IntensityImage

section FillStatistics

variable {α : Type} [LinearOrderedField α]

/-- The statistics of the object the fill constructor builds, when the `size_t`
product `width * height` is not 0. -/
theorem create_value_statistics [Inhabited α] (w h : Nat) (v : α) (mem : Heap α) (hw : 0 < w)
    (hh : 0 < h) (hwrap : (w * h) % SIZE_MODULUS ≠ 0) :
    ∃ f mem1, create_value w h v mem = some (f, mem1) ∧ f.mean mem1 = some v ∧
      f.variance mem1 = some 0 ∧ f.max mem1 = some v ∧ f.min mem1 = some v := by
  have hd : (IntensityImage.mk ⟨w, h, some mem.length⟩).d.data = some mem.length := rfl
  have hb : Heap.buffer (mem ++ [some (List.replicate ((w * h) % SIZE_MODULUS) v)])
      (some mem.length) = some (List.replicate ((w * h) % SIZE_MODULUS) v) :=
    Heap.buffer_append_new mem _
  have hlen : (List.replicate ((w * h) % SIZE_MODULUS) v).length
      = (IntensityImage.mk ⟨w, h, some mem.length⟩).elems := by
    simp [elems]
  have hne : (IntensityImage.mk ⟨w, h, some mem.length⟩).elems ≠ 0 := hwrap
  have hpos : 0 < (List.replicate ((w * h) % SIZE_MODULUS) v).length := by
    rw [hlen]; exact Nat.pos_of_ne_zero hne
  have hc : ∀ x ∈ List.replicate ((w * h) % SIZE_MODULUS) v, x = v :=
    fun x hx => List.eq_of_mem_replicate hx
  refine ⟨_, _, create_value_eq w h v mem hw hh, ?_, ?_, ?_, ?_⟩
  · rw [mean_of_buffer hd hb hlen hne, ← hlen, mean_constant _ v hpos hc]
  · obtain ⟨var, hvar, hiff⟩ := variance_zero_of_buffer hd hb hlen hne
    have h0 : var = 0 := hiff.mpr (fun x hx y hy => by rw [hc x hx, hc y hy])
    rw [hvar, h0]
  · obtain ⟨r, hr, hmem, _⟩ := max_of_buffer hd hb hlen hne
    rw [hr, hc r hmem]
  · obtain ⟨r, hr, hmem, _⟩ := min_of_buffer hd hb hlen hne
    rw [hr, hc r hmem]

/-- C20, as the claim states it, fails when `width * height` wraps to 0: for width
and height `2 ^ 32` and the value 1 the fill constructor builds an object with
`elems() == 0`, whose `mean()`, `max()` and `min()` are 0, not 1. -/
theorem create_value_statistics_overflow :
    create_value (2 ^ 32) (2 ^ 32) (1 : ℚ) []
      = some ({ d := { width := 2 ^ 32, height := 2 ^ 32, data := some 0 } }, [some []]) ∧
    (0 < 2 ^ 32 ∧ (IntensityImage.mk ⟨2 ^ 32, 2 ^ 32, some 0⟩).elems = 0) ∧
    (IntensityImage.mk ⟨2 ^ 32, 2 ^ 32, some 0⟩).mean ([some []] : Heap ℚ) = some 0 ∧
    (IntensityImage.mk ⟨2 ^ 32, 2 ^ 32, some 0⟩).max ([some []] : Heap ℚ) = some 0 ∧
    (IntensityImage.mk ⟨2 ^ 32, 2 ^ 32, some 0⟩).min ([some []] : Heap ℚ) = some 0 ∧
    (some 0 : Option ℚ) ≠ some 1 := by
  have he : (IntensityImage.mk ⟨2 ^ 32, 2 ^ 32, some 0⟩).elems = 0 := by decide
  refine ⟨by rfl, ⟨by decide, he⟩, ?_, ?_, ?_, by simp⟩
  · simp only [mean, he, if_true]
  · simp only [IntensityImage.max, he, if_true]
  · simp only [IntensityImage.min, he, if_true]

/-- C20, amended: for a non-empty matrix that satisfies the data model,
`variance() == 0` exactly when all elements are equal; and the fill constructor
with `w, h > 0` whose `size_t` product `w * h` is not 0 (so whenever `w * h` fits
`size_t`) builds an object with `mean() == v`, `variance() == 0` and
`max() == min() == v`. -/
theorem variance_zero_iff_constant [Inhabited α] (m : IntensityImage) (mem : Heap α)
    (hv : m.Valid mem) (hne : m.elems ≠ 0) (w h : Nat) (v : α) (mem0 : Heap α) (hw : 0 < w)
    (hh : 0 < h) (hwrap : (w * h) % SIZE_MODULUS ≠ 0) :
    (∃ xs var, m.values mem = some xs ∧ m.variance mem = some var ∧
      (var = 0 ↔ ∀ x ∈ xs, ∀ y ∈ xs, x = y)) ∧
    (∃ f mem1, create_value w h v mem0 = some (f, mem1) ∧ f.mean mem1 = some v ∧
      f.variance mem1 = some 0 ∧ f.max mem1 = some v ∧ f.min mem1 = some v) := by
  obtain ⟨p, xs, hd, hb, hval, hlen, _⟩ := sum_eq hv hne
  obtain ⟨var, hvar, hiff⟩ := variance_zero_of_buffer hd hb hlen hne
  exact ⟨⟨xs, var, hval, hvar, hiff⟩, create_value_statistics w h v mem0 hw hh hwrap⟩

/-- C20, amended, on the sample object and for `IntensityImage(2, 3, 7)`. -/
theorem variance_zero_iff_constant_witness :
    (sampleImage.Valid sampleHeap ∧ sampleImage.elems ≠ 0 ∧ (2 * 3) % SIZE_MODULUS ≠ 0) ∧
    (∃ xs var, sampleImage.values sampleHeap = some xs ∧
      sampleImage.variance sampleHeap = some var ∧ (var = 0 ↔ ∀ x ∈ xs, ∀ y ∈ xs, x = y)) ∧
    (∃ f mem1, create_value 2 3 (7 : ℚ) [] = some (f, mem1) ∧ f.mean mem1 = some 7 ∧
      f.variance mem1 = some 0 ∧ f.max mem1 = some 7 ∧ f.min mem1 = some 7) :=
  ⟨⟨by decide, by decide, by decide⟩,
    variance_zero_iff_constant sampleImage sampleHeap (by decide) (by decide) 2 3 (7 : ℚ) []
      (by decide) (by decide) (by decide)⟩

end FillStatistics

end IntensityImage

end Core

/-! ## Array sizes are all that the data model sees -/

namespace Core

namespace Heap

variable {α : Type}

theorem SameSizes.refl (mem : Heap α) : mem.SameSizes mem :=
  ⟨rfl, fun _ => rfl⟩

theorem SameSizes.trans {mem mem1 mem2 : Heap α} (h1 : mem.SameSizes mem1)
    (h2 : mem1.SameSizes mem2) : mem.SameSizes mem2 :=
  ⟨h2.1.trans h1.1, fun q => (h2.2 q).trans (h1.2 q)⟩

theorem write_sameSizes {mem mem1 : Heap α} {ptr : Ptr} {i : Nat} {v : α}
    (h : mem.write ptr i v = some mem1) : mem.SameSizes mem1 := by
  unfold write at h
  split at h
  · rename_i buf p hb
    split at h
    · injection h with h
      subst h
      refine ⟨by simp, fun q => ?_⟩
      by_cases hq : q = p
      · subst hq
        rw [buffer_set_self mem _ (buffer_lt hb), hb]
        simp
      · rw [buffer_set_ne mem _ hq]
    · simp at h
  · simp at h

theorem release_frame {mem mem0 : Heap α} {ptr : Ptr}
    (h : (if ptr ≠ none then mem.release ptr else some mem) = some mem0) :
    mem0.length = mem.length ∧ ∀ q, some q ≠ ptr → mem0.buffer (some q) = mem.buffer (some q) := by
  split at h
  · unfold release at h
    split at h
    · injection h with h
      subst h
      refine ⟨by simp, fun q hq => buffer_set_ne mem _ ?_⟩
      intro hqp
      exact hq (by rw [hqp])
    · simp at h
  · injection h with h
    subst h
    exact ⟨rfl, fun _ _ => rfl⟩

theorem alloc_sizes [Inhabited α] {mem0 mem2 : Heap α} {n : Nat}
    (h : SameSizes (mem0.alloc n).2 mem2) :
    mem2.length = mem0.length + 1 ∧
    (mem2.buffer (some mem0.length)).map List.length = some n ∧
    ∀ q, q < mem0.length →
      (mem2.buffer (some q)).map List.length = (mem0.buffer (some q)).map List.length := by
  refine ⟨by rw [h.1]; simp [alloc], ?_, fun q hq => ?_⟩
  · rw [h.2]
    simp [alloc, buffer_append_new]
  · rw [h.2]
    simp only [alloc]
    rw [buffer_append_old _ hq]

end Heap

namespace IntensityImagePrivate

variable {α : Type}

theorem fillLoop_sameSizes (data : Ptr) (v : α) :
    ∀ (k i : Nat) (mem mem1 : Heap α), fillLoop data v k i mem = some mem1 →
      mem.SameSizes mem1 := by
  intro k
  induction k with
  | zero =>
    intro i mem mem1 h
    simp only [fillLoop] at h
    injection h with h
    subst h
    exact Heap.SameSizes.refl mem
  | succ k ih =>
    intro i mem mem1 h
    rw [fillLoop] at h
    split at h
    · rename_i mem0 hw
      exact (Heap.write_sameSizes hw).trans (ih _ _ _ h)
    · simp at h

theorem copyLoop_sameSizes (data d : Ptr) :
    ∀ (k i : Nat) (mem mem1 : Heap α), copyLoop data d k i mem = some mem1 →
      mem.SameSizes mem1 := by
  intro k
  induction k with
  | zero =>
    intro i mem mem1 h
    simp only [copyLoop] at h
    injection h with h
    subst h
    exact Heap.SameSizes.refl mem
  | succ k ih =>
    intro i mem mem1 h
    rw [copyLoop] at h
    split at h
    · split at h
      · rename_i mem0 hw
        exact (Heap.write_sameSizes hw).trans (ih _ _ _ h)
      · simp at h
    · simp at h

/-- The three ways `copy(w, h, d)` can return: the degenerate case, the reuse of
the array in place, and the release of the old array (if any) followed by the
allocation of `w * h` (as `size_t`) elements at a fresh address. -/
theorem copy_data_cases [Inhabited α] {self d1 : IntensityImagePrivate} {w h : Nat} {d : Ptr}
    {mem mem1 : Heap α} (hres : self.copy_data w h d mem = some (d1, mem1)) :
    (d1 = { width := 0, height := 0, data := none } ∧ mem1 = mem ∧ (w = 0 ∨ h = 0 ∨ d = none)) ∨
    (d1 = self ∧ mem.SameSizes mem1 ∧ self.data ≠ none ∧ self.width = w ∧ self.height = h ∧
      w ≠ 0 ∧ h ≠ 0 ∧ d ≠ none) ∨
    (d1 = { width := w, height := h, data := some mem.length } ∧ w ≠ 0 ∧ h ≠ 0 ∧ d ≠ none ∧
      ¬ (self.data ≠ none ∧ self.width = w ∧ self.height = h) ∧
      mem1.length = mem.length + 1 ∧
      (mem1.buffer (some mem.length)).map List.length = some ((w * h) % SIZE_MODULUS) ∧
      ∀ q, some q ≠ self.data → q < mem.length →
        (mem1.buffer (some q)).map List.length = (mem.buffer (some q)).map List.length) := by
  unfold copy_data at hres
  split at hres
  · rename_i hdeg
    injection hres with hres
    injection hres with h1 h2
    exact Or.inl ⟨h1.symm, h2.symm, hdeg⟩
  · rename_i hdeg
    have hw : w ≠ 0 := fun hc => hdeg (Or.inl hc)
    have hh : h ≠ 0 := fun hc => hdeg (Or.inr (Or.inl hc))
    have hd : d ≠ none := fun hc => hdeg (Or.inr (Or.inr hc))
    simp only at hres
    split at hres
    · rename_i hreuse
      split at hres
      · rename_i mem2 hloop
        injection hres with hres
        injection hres with h1 h2
        subst h2
        exact Or.inr (Or.inl ⟨h1.symm, copyLoop_sameSizes _ _ _ _ _ _ hloop, hreuse.1,
          hreuse.2.1, hreuse.2.2, hw, hh, hd⟩)
      · simp at hres
    · rename_i hreuse
      split at hres
      · rename_i mem0 hrel
        split at hres
        · rename_i mem2 hloop
          injection hres with hres
          injection hres with h1 h2
          subst h2
          obtain ⟨hlen0, hframe⟩ := Heap.release_frame hrel
          obtain ⟨hlen2, hnew, hold⟩ := Heap.alloc_sizes (copyLoop_sameSizes _ _ _ _ _ _ hloop)
          refine Or.inr (Or.inr ⟨?_, hw, hh, hd, hreuse, by rw [hlen2, hlen0], ?_, ?_⟩)
          · rw [← h1]; simp [Heap.alloc, hlen0]
          · rw [← hlen0]; exact hnew
          · intro q hq hlt
            rw [hold q (by rw [hlen0]; exact hlt), hframe q hq]
        · simp at hres
      · simp at hres

/-- The ways `copy(w, h, value)` can return, as for `copy(w, h, d)`. -/
theorem copy_value_cases [Inhabited α] {self d1 : IntensityImagePrivate} {w h : Nat} {v : α}
    {mem mem1 : Heap α} (hres : self.copy_value w h v mem = some (d1, mem1)) :
    (d1 = { width := 0, height := 0, data := none } ∧ mem1 = mem ∧ (w = 0 ∨ h = 0)) ∨
    (d1 = self ∧ mem.SameSizes mem1 ∧ self.data ≠ none ∧ self.width = w ∧ self.height = h ∧
      w ≠ 0 ∧ h ≠ 0) ∨
    (d1 = { width := w, height := h, data := some mem.length } ∧ w ≠ 0 ∧ h ≠ 0 ∧
      ¬ (self.data ≠ none ∧ self.width = w ∧ self.height = h) ∧
      mem1.length = mem.length + 1 ∧
      (mem1.buffer (some mem.length)).map List.length = some ((w * h) % SIZE_MODULUS) ∧
      ∀ q, some q ≠ self.data → q < mem.length →
        (mem1.buffer (some q)).map List.length = (mem.buffer (some q)).map List.length) := by
  unfold copy_value at hres
  split at hres
  · rename_i hdeg
    injection hres with hres
    injection hres with h1 h2
    exact Or.inl ⟨h1.symm, h2.symm, hdeg⟩
  · rename_i hdeg
    have hw : w ≠ 0 := fun hc => hdeg (Or.inl hc)
    have hh : h ≠ 0 := fun hc => hdeg (Or.inr hc)
    simp only at hres
    split at hres
    · rename_i hreuse
      split at hres
      · rename_i mem2 hloop
        injection hres with hres
        injection hres with h1 h2
        subst h2
        exact Or.inr (Or.inl ⟨h1.symm, fillLoop_sameSizes _ _ _ _ _ _ hloop, hreuse.1,
          hreuse.2.1, hreuse.2.2, hw, hh⟩)
      · simp at hres
    · rename_i hreuse
      split at hres
      · rename_i mem0 hrel
        split at hres
        · rename_i mem2 hloop
          injection hres with hres
          injection hres with h1 h2
          subst h2
          obtain ⟨hlen0, hframe⟩ := Heap.release_frame hrel
          obtain ⟨hlen2, hnew, hold⟩ := Heap.alloc_sizes (fillLoop_sameSizes _ _ _ _ _ _ hloop)
          refine Or.inr (Or.inr ⟨?_, hw, hh, hreuse, by rw [hlen2, hlen0], ?_, ?_⟩)
          · rw [← h1]; simp [Heap.alloc, hlen0]
          · rw [← hlen0]; exact hnew
          · intro q hq hlt
            rw [hold q (by rw [hlen0]; exact hlt), hframe q hq]
        · simp at hres
      · simp at hres

end IntensityImagePrivate

end Core

/-! ## The two paths of the copy assignment -/

namespace Core

namespace IntensityImage

variable {α : Type}

/-- C17, as the claim states it, fails for equal element counts under different
shapes: assigning the 2 x 3 sample object to a 3 x 2 object (6 elements each) does
not reuse the array of the destination at address 1; that array is released and
the copy is put in a new array at address 2. -/
theorem assign_copy_same_count :
    sampleImage.Valid sampleHeap3 ∧ sampleImage3.Valid sampleHeap3 ∧
    sampleImage3.width * sampleImage3.height = sampleImage.width * sampleImage.height ∧
    sampleImage3.assign_copy sampleImage sampleHeap3
      = some ({ d := { width := 2, height := 3, data := some 2 } },
          [some [1, 2, 3, 4, 5, 6], none, some [1, 2, 3, 4, 5, 6]]) ∧
    sampleImage3.data = some 1 :=
  ⟨by decide, by decide, by decide, by rfl, by rfl⟩

/-- C17, amended: for non-empty `a` and `b` that satisfy the data model and do not
share an array, with `p` the array of `b` and `src` the elements of `a`: when `b`
has the width and the height of `a`, `b = a` takes the reuse path (`b` keeps its
pointer, the store keeps its addresses, and only the contents of the array at `p`
change, to `src`); when the shapes differ, equal element counts or not, it takes
the release-and-reallocate path (the array at `p` is released and `b` points to a
new array, holding `src`, at a fresh address). -/
theorem assign_copy_paths [Inhabited α] (a b : IntensityImage) (mem : Heap α)
    (ha : a.Valid mem) (hb : b.Valid mem) (hane : a.empty = false) (hbne : b.empty = false)
    (hab : b.data ≠ a.data) :
    ∃ p src, b.data = some p ∧ a.values mem = some src ∧
      (b.width = a.width ∧ b.height = a.height →
        b.assign_copy a mem = some (b, mem.set p (some src))) ∧
      (¬ (b.width = a.width ∧ b.height = a.height) →
        b.assign_copy a mem
          = some ({ d := { width := a.width, height := a.height, data := some mem.length } },
              mem.set p none ++ [some src])) := by
  cases hq : a.d.data with
  | none => simp [empty, hq] at hane
  | some q =>
    cases hp : b.d.data with
    | none => simp [empty, hp] at hbne
    | some p =>
      have hpq : p ≠ q := by
        intro hc
        apply hab
        simp [data, hp, hq, hc]
      obtain ⟨src, hq0, hlen, hfit, hw, hh, hval⟩ := ha.values hq
      obtain ⟨buf, hp0, hblen, _, _, _, _⟩ := hb.values hp
      have hmod : (a.d.width * a.d.height) % SIZE_MODULUS = src.length := by
        rw [hlen]; exact Nat.mod_eq_of_lt hfit
      refine ⟨p, src, by simp [data, hp], hval, ?_, ?_⟩
      · intro hshape
        simp only [width, height] at hshape
        have hcopy := copy_data_reuse b.d a.d.width a.d.height p q mem buf src hp (by omega)
          (by omega) hshape.1 hshape.2 hpq hp0 hq0
          (by rw [hmod, hblen, hshape.1, hshape.2, hlen]) (by rw [hmod])
        have hdrop : buf.drop src.length = [] := by
          apply List.drop_eq_nil_of_le
          rw [hblen, hshape.1, hshape.2, hlen]
        rw [hmod, List.take_length, hdrop, List.append_nil] at hcopy
        simp only [assign_copy, width, height, data, hq, hcopy]
      · intro hshape
        simp only [width, height] at hshape
        have hcopy := copy_data_realloc b.d a.d.width a.d.height p q mem buf src hp (by omega)
          (by omega) hshape hpq hp0 hq0 (by rw [hmod])
        rw [hmod, List.take_length] at hcopy
        simp only [assign_copy, width, height, data, hq, hcopy]

/-- C17, amended, for two 2 x 3 objects (reuse) and for a 3 x 2 destination of a
2 x 3 source (release and reallocate). -/
theorem assign_copy_paths_witness :
    (IntensityImage.mk ⟨2, 3, some 1⟩).assign_copy sampleImage sampleHeap3
      = some (IntensityImage.mk ⟨2, 3, some 1⟩,
          [some [1, 2, 3, 4, 5, 6], some [1, 2, 3, 4, 5, 6]]) ∧
    ∃ p src, sampleImage3.data = some p ∧ sampleImage.values sampleHeap3 = some src ∧
      (sampleImage3.width = sampleImage.width ∧ sampleImage3.height = sampleImage.height →
        sampleImage3.assign_copy sampleImage sampleHeap3
          = some (sampleImage3, sampleHeap3.set p (some src))) ∧
      (¬ (sampleImage3.width = sampleImage.width ∧ sampleImage3.height = sampleImage.height) →
        sampleImage3.assign_copy sampleImage sampleHeap3
          = some ({ d := { width := sampleImage.width, height := sampleImage.height,
                           data := some sampleHeap3.length } },
              sampleHeap3.set p none ++ [some src])) :=
  ⟨by rfl, assign_copy_paths sampleImage sampleImage3 sampleHeap3 (by decide) (by decide)
    (by decide) (by decide) (by decide)⟩

end IntensityImage

end Core

/-! ## Index safety -/

namespace Core

namespace IntensityImage

variable {α : Type}

/-- C18, as the claim states it, fails when `width * height` wraps: the fill
constructor with width `2 ^ 63 + 1` and height 2 allocates 2 elements; position
(0, 1) passes the bounds check and has offset 2, not less than 2; and the
in-range positions (0, 0) and (0, `2 ^ 63`) both have offset 0. -/
theorem offset_overflow :
    create_value (2 ^ 63 + 1) 2 (0 : ℚ) []
      = some (IntensityImage.mk ⟨2 ^ 63 + 1, 2, some 0⟩, [some [0, 0]]) ∧
    (Heap.buffer ([some [0, 0]] : Heap ℚ) (IntensityImage.mk ⟨2 ^ 63 + 1, 2, some 0⟩).data).map
      List.length = some 2 ∧
    (0 < (IntensityImage.mk ⟨2 ^ 63 + 1, 2, some 0⟩).height ∧
      1 < (IntensityImage.mk ⟨2 ^ 63 + 1, 2, some 0⟩).width ∧
      ¬ (0 + 1 * (IntensityImage.mk ⟨2 ^ 63 + 1, 2, some 0⟩).height) % SIZE_MODULUS < 2) ∧
    (2 ^ 63 < (IntensityImage.mk ⟨2 ^ 63 + 1, 2, some 0⟩).width ∧
      (0 + 0 * (IntensityImage.mk ⟨2 ^ 63 + 1, 2, some 0⟩).height) % SIZE_MODULUS
        = (0 + 2 ^ 63 * (IntensityImage.mk ⟨2 ^ 63 + 1, 2, some 0⟩).height) % SIZE_MODULUS ∧
      (0 : Nat) ≠ 2 ^ 63) :=
  ⟨by rfl, by rfl, ⟨by decide, by decide, by decide⟩, ⟨by decide, by decide, by decide⟩⟩

/-- C18, amended (index safety): for a matrix built by the fill constructor or by
the constructor that copies data, from a width and a height whose product fits
`size_t`, every position that passes the bounds check has an offset
`row + col * height()` (as `size_t`) less than the number of elements allocated,
which is `width * height` (as `size_t`); and in-range positions with the same
offset are the same position. -/
theorem index_safety [Inhabited α] (w h : Nat) (v : α) (d : Ptr) (mem : Heap α)
    (hfit : w * h < SIZE_MODULUS) (m : IntensityImage) (mem1 : Heap α)
    (hbuilt : create_value w h v mem = some (m, mem1) ∨ create_data w h d mem = some (m, mem1)) :
    (∀ row col, row < m.height → col < m.width →
      ∃ n, (mem1.buffer m.data).map List.length = some n ∧ n = (w * h) % SIZE_MODULUS ∧
        (row + col * m.height) % SIZE_MODULUS < n) ∧
    (∀ row col row2 col2, row < m.height → col < m.width → row2 < m.height → col2 < m.width →
      (row + col * m.height) % SIZE_MODULUS = (row2 + col2 * m.height) % SIZE_MODULUS →
      row = row2 ∧ col = col2) := by
  have hcases : (m.d = { width := 0, height := 0, data := none }) ∨
      (m.d = { width := w, height := h, data := some mem.length } ∧
        (mem1.buffer (some mem.length)).map List.length = some ((w * h) % SIZE_MODULUS)) := by
    rcases hbuilt with hb | hb
    · simp only [create_value] at hb
      split at hb
      · rename_i d1 mem2 hcopy
        injection hb with hb
        injection hb with h1 h2
        subst h1 h2
        rcases IntensityImagePrivate.copy_value_cases hcopy with hA | hB | hC
        · exact Or.inl hA.1
        · exact absurd rfl hB.2.2.1
        · exact Or.inr ⟨hC.1, hC.2.2.2.2.2.1⟩
      · simp at hb
    · simp only [create_data] at hb
      split at hb
      · rename_i d1 mem2 hcopy
        injection hb with hb
        injection hb with h1 h2
        subst h1 h2
        rcases IntensityImagePrivate.copy_data_cases hcopy with hA | hB | hC
        · exact Or.inl hA.1
        · exact absurd rfl hB.2.2.1
        · exact Or.inr ⟨hC.1, hC.2.2.2.2.2.2.1⟩
      · simp at hb
  rcases hcases with h0 | ⟨hm, hsize⟩
  · constructor
    · intro row col hr
      simp [height, h0] at hr
    · intro row col row2 col2 hr
      simp [height, h0] at hr
  · have hmod : (w * h) % SIZE_MODULUS = w * h := Nat.mod_eq_of_lt hfit
    constructor
    · intro row col hr hc
      simp only [height, width, hm] at hr hc
      refine ⟨(w * h) % SIZE_MODULUS, by simp only [data, hm, hsize], rfl, ?_⟩
      simp only [height, hm]
      have hlt : row + col * h < w * h := offset_lt hr hc
      rw [Nat.mod_eq_of_lt (Nat.lt_trans hlt hfit), hmod]
      exact hlt
    · intro row col row2 col2 hr hc hr2 hc2 heq
      simp only [height, width, hm] at hr hc hr2 hc2 heq
      rw [Nat.mod_eq_of_lt (Nat.lt_trans (offset_lt hr hc) hfit),
        Nat.mod_eq_of_lt (Nat.lt_trans (offset_lt hr2 hc2) hfit)] at heq
      exact offset_inj hr hr2 heq

/-- C18, amended, for `IntensityImage(2, 3, 7)` in the empty store. -/
theorem index_safety_witness :
    2 * 3 < SIZE_MODULUS ∧
    create_value 2 3 (7 : ℚ) [] = some (IntensityImage.mk ⟨2, 3, some 0⟩, [some [7, 7, 7, 7, 7, 7]]) ∧
    ∀ row col, row < (IntensityImage.mk ⟨2, 3, some 0⟩).height →
      col < (IntensityImage.mk ⟨2, 3, some 0⟩).width →
      ∃ n, (Heap.buffer ([some [7, 7, 7, 7, 7, 7]] : Heap ℚ)
          (IntensityImage.mk ⟨2, 3, some 0⟩).data).map List.length = some n ∧
        n = (2 * 3) % SIZE_MODULUS ∧
        (row + col * (IntensityImage.mk ⟨2, 3, some 0⟩).height) % SIZE_MODULUS < n :=
  ⟨by decide, by rfl,
    (index_safety 2 3 (7 : ℚ) none [] (by decide) (IntensityImage.mk ⟨2, 3, some 0⟩)
      [some [7, 7, 7, 7, 7, 7]] (Or.inl (by rfl))).1⟩

end IntensityImage

end Core

/-! ## The invariant of a program state -/

namespace Core

namespace IntensityImage

variable {α : Type}

/-- The data model only looks at the size of the array of the object. -/
theorem Valid.frame {m : IntensityImage} {mem mem1 : Heap α} (hv : m.Valid mem)
    (h : ∀ q, m.d.data = some q →
      (mem1.buffer (some q)).map List.length = (mem.buffer (some q)).map List.length) :
    m.Valid mem1 := by
  rcases hv with h0 | ⟨hw, hh, hfit, hb⟩
  · exact Or.inl h0
  · cases hd : m.d.data with
    | none => simp [hd, Heap.buffer] at hb
    | some q =>
      refine Or.inr ⟨hw, hh, hfit, ?_⟩
      rw [hd] at hb ⊢
      rw [h q hd]
      exact hb

theorem Valid.ptr_lt {m : IntensityImage} {mem : Heap α} (hv : m.Valid mem) {q : Nat}
    (hd : m.d.data = some q) : q < mem.length := by
  obtain ⟨buf, hb, _⟩ := hv.values hd
  exact Heap.buffer_lt hb

theorem Valid.of_sameSizes {m : IntensityImage} {mem mem1 : Heap α} (hv : m.Valid mem)
    (h : mem.SameSizes mem1) : m.Valid mem1 :=
  hv.frame (fun q _ => h.2 q)

theorem valid_create (mem : Heap α) : (create : IntensityImage).Valid mem :=
  Or.inl ⟨rfl, rfl, rfl⟩

/-- On a valid object `empty()` holds exactly when `elems() == 0`. -/
theorem Valid.empty_iff {m : IntensityImage} {mem : Heap α} (hv : m.Valid mem) :
    m.empty = true ↔ m.elems = 0 := by
  rcases hv with ⟨hd, hw, _⟩ | ⟨hw, hh, hfit, hb⟩
  · simp [empty, elems, hd, hw]
  · cases hd : m.d.data with
    | none => simp [hd, Heap.buffer] at hb
    | some q =>
      have hpos : 0 < m.d.width * m.d.height := Nat.mul_pos hw hh
      simp only [empty, elems, hd, Nat.mod_eq_of_lt hfit]
      constructor
      · intro hc; simp at hc
      · intro hc; omega

end IntensityImage

namespace World

variable {α : Type}

theorem consistent_push {objs : List IntensityImage} {mem mem1 : Heap α} {m : IntensityImage}
    (hc : Consistent { objects := objs, mem := mem })
    (hframe : ∀ (k : Nat) (c : IntensityImage), objs[k]? = some c → c.Valid mem1)
    (hm : m.Valid mem1)
    (hfresh : ∀ (k : Nat) (c : IntensityImage), objs[k]? = some c →
      ∀ p, m.d.data = some p → c.d.data ≠ some p) :
    Consistent { objects := objs ++ [m], mem := mem1 } := by
  have hget : ∀ (k : Nat) (c : IntensityImage), (objs ++ [m])[k]? = some c →
      (k < objs.length ∧ objs[k]? = some c) ∨ (k = objs.length ∧ c = m) := by
    intro k c hk
    by_cases hlt : k < objs.length
    · rw [List.getElem?_append_left hlt] at hk
      exact Or.inl ⟨hlt, hk⟩
    · rw [List.getElem?_append_right (Nat.le_of_not_lt hlt)] at hk
      cases hsub : k - objs.length with
      | zero =>
        rw [hsub] at hk
        simp at hk
        exact Or.inr ⟨by omega, hk.symm⟩
      | succ n =>
        rw [hsub] at hk
        simp at hk
  intro i x hx
  simp only at hx ⊢
  rcases hget i x hx with ⟨hi, hxi⟩ | ⟨hi, hxm⟩
  · refine ⟨hframe i x hxi, ?_⟩
    intro j m2 hji hm2 p hp
    rcases hget j m2 hm2 with ⟨_, hm2j⟩ | ⟨_, hm2m⟩
    · exact (hc i x hxi).2 j m2 hji hm2j p hp
    · subst hm2m
      intro hmp
      exact hfresh i x hxi p hmp hp
  · subst hxm
    refine ⟨hm, ?_⟩
    intro j m2 hji hm2 p hp
    rcases hget j m2 hm2 with ⟨_, hm2j⟩ | ⟨hj, _⟩
    · exact hfresh j m2 hm2j p hp
    · omega

theorem consistent_set {objs : List IntensityImage} {mem mem1 : Heap α} {m old : IntensityImage}
    {i : Nat} (hc : Consistent { objects := objs, mem := mem }) (hi : objs[i]? = some old)
    (hframe : ∀ (k : Nat) (c : IntensityImage), k ≠ i → objs[k]? = some c → c.Valid mem1)
    (hm : m.Valid mem1)
    (hfresh : ∀ (k : Nat) (c : IntensityImage), k ≠ i → objs[k]? = some c →
      ∀ p, m.d.data = some p → c.d.data ≠ some p) :
    Consistent { objects := objs.set i m, mem := mem1 } := by
  have hlt : i < objs.length := by
    by_contra hge
    rw [List.getElem?_eq_none (Nat.le_of_not_lt hge)] at hi
    cases hi
  have hget : ∀ (k : Nat) (c : IntensityImage), (objs.set i m)[k]? = some c →
      (k = i ∧ c = m) ∨ (k ≠ i ∧ objs[k]? = some c) := by
    intro k c hk
    by_cases hki : k = i
    · subst hki
      rw [List.getElem?_set_self hlt] at hk
      injection hk with hk
      exact Or.inl ⟨rfl, hk.symm⟩
    · rw [List.getElem?_set_ne (Ne.symm hki)] at hk
      exact Or.inr ⟨hki, hk⟩
  intro k x hx
  simp only at hx ⊢
  rcases hget k x hx with ⟨hk, hxm⟩ | ⟨hk, hxk⟩
  · subst hxm
    refine ⟨hm, ?_⟩
    intro j m2 hjk hm2 p hp
    rcases hget j m2 hm2 with ⟨hj, _⟩ | ⟨hj, hm2j⟩
    · omega
    · exact hfresh j m2 hj hm2j p hp
  · refine ⟨hframe k x hk hxk, ?_⟩
    intro j m2 hjk hm2 p hp
    rcases hget j m2 hm2 with ⟨_, hm2m⟩ | ⟨_, hm2j⟩
    · subst hm2m
      intro hmp
      exact hfresh k x hk hxk p hmp hp
    · exact (hc k x hxk).2 j m2 hjk hm2j p hp

theorem consistent_store {objs : List IntensityImage} {mem mem1 : Heap α}
    (hc : Consistent { objects := objs, mem := mem })
    (hframe : ∀ (k : Nat) (c : IntensityImage), objs[k]? = some c → c.Valid mem1) :
    Consistent { objects := objs, mem := mem1 } := by
  intro i x hx
  exact ⟨hframe i x hx, (hc i x hx).2⟩

/-- Exchanging the states of two objects keeps the invariant. -/
theorem consistent_exchange {objs : List IntensityImage} {mem : Heap α} {a b : IntensityImage}
    {i j : Nat} (hc : Consistent { objects := objs, mem := mem }) (hi : objs[i]? = some b)
    (hj : objs[j]? = some a) :
    Consistent { objects := (objs.set i a).set j b, mem := mem } := by
  have hilt : i < objs.length := by
    by_contra hge
    rw [List.getElem?_eq_none (Nat.le_of_not_lt hge)] at hi
    cases hi
  have hjlt : j < objs.length := by
    by_contra hge
    rw [List.getElem?_eq_none (Nat.le_of_not_lt hge)] at hj
    cases hj
  have hget : ∀ (k : Nat), ((objs.set i a).set j b)[k]?
      = objs[if k = j then i else if k = i then j else k]? := by
    intro k
    by_cases hkj : k = j
    · subst hkj
      rw [List.getElem?_set_self (by simpa using hjlt), if_pos rfl, hi]
    · rw [List.getElem?_set_ne (Ne.symm hkj), if_neg hkj]
      by_cases hki : k = i
      · subst hki
        rw [List.getElem?_set_self hilt, if_pos rfl, hj]
      · rw [List.getElem?_set_ne (Ne.symm hki), if_neg hki]
  intro k x hx
  simp only at hx ⊢
  rw [hget k] at hx
  refine ⟨(hc _ x hx).1, ?_⟩
  intro l m2 hlk hm2 p hp
  rw [hget l] at hm2
  refine (hc _ x hx).2 _ m2 ?_ hm2 p hp
  split_ifs <;> omega

end World

end Core

/-! ## Every statement keeps the invariant -/

namespace Core

namespace IntensityImage

variable {α : Type}

theorem setValueAt_sameSizes (m : IntensityImage) (row col : Nat) (v : α) (mem : Heap α) :
    (m.setValueAt row col v mem).2.1 = m ∧ mem.SameSizes (m.setValueAt row col v mem).2.2 := by
  unfold setValueAt
  split
  · exact ⟨rfl, Heap.SameSizes.refl mem⟩
  · split
    · rename_i mem1 hw
      exact ⟨rfl, Heap.write_sameSizes hw⟩
    · exact ⟨rfl, Heap.SameSizes.refl mem⟩

/-- An object over a freshly allocated array of `w * h` elements is valid. -/
theorem valid_built {w h addr : Nat} {mem1 : Heap α} (hw : w ≠ 0) (hh : h ≠ 0)
    (hfit : w * h < SIZE_MODULUS)
    (hsize : (mem1.buffer (some addr)).map List.length = some ((w * h) % SIZE_MODULUS)) :
    (IntensityImage.mk ⟨w, h, some addr⟩).Valid mem1 := by
  refine Or.inr ⟨Nat.pos_of_ne_zero hw, Nat.pos_of_ne_zero hh, hfit, ?_⟩
  rw [Nat.mod_eq_of_lt hfit] at hsize
  exact hsize

/-- An object that does not own the released array stays valid across a release
and an allocation. -/
theorem Valid.across_realloc {c : IntensityImage} {mem mem1 : Heap α} {old : Ptr}
    (hv : c.Valid mem) (hne : ∀ q, c.d.data = some q → some q ≠ old)
    (hframe : ∀ q, some q ≠ old → q < mem.length →
      (mem1.buffer (some q)).map List.length = (mem.buffer (some q)).map List.length) :
    c.Valid mem1 :=
  hv.frame (fun q hq => hframe q (hne q hq) (hv.ptr_lt hq))

end IntensityImage

namespace World

variable {α : Type}

/-- Adding an object built over a fresh array keeps the invariant. -/
theorem consistent_push_built {objs : List IntensityImage} {mem mem1 : Heap α} {w h : Nat}
    (hc : Consistent { objects := objs, mem := mem }) (hw : w ≠ 0) (hh : h ≠ 0)
    (hfit : w * h < SIZE_MODULUS)
    (hsize : (mem1.buffer (some mem.length)).map List.length = some ((w * h) % SIZE_MODULUS))
    (hframe : ∀ q, some q ≠ (none : Ptr) → q < mem.length →
      (mem1.buffer (some q)).map List.length = (mem.buffer (some q)).map List.length) :
    Consistent { objects := objs ++ [IntensityImage.mk ⟨w, h, some mem.length⟩], mem := mem1 } := by
  refine consistent_push hc ?_ (IntensityImage.valid_built hw hh hfit hsize) ?_
  · intro k c hk
    exact (hc k c hk).1.across_realloc (fun q _ => by simp) hframe
  · intro k c hk p hp hcp
    have hlt := (hc k c hk).1.ptr_lt hcp
    simp only [Option.some.injEq] at hp
    simp only at hlt
    omega

/-- What a constructor that copies yields keeps the invariant. -/
theorem consistent_push_copy [Inhabited α] {s : World α} {w h : Nat} {d : Ptr}
    {d1 : IntensityImagePrivate} {mem1 : Heap α} (hc : s.Consistent)
    (hfit : w * h < SIZE_MODULUS)
    (hres : IntensityImagePrivate.ctor.copy_data w h d s.mem = some (d1, mem1)) :
    Consistent { objects := s.objects ++ [IntensityImage.mk d1], mem := mem1 } := by
  rcases IntensityImagePrivate.copy_data_cases hres with hA | hB | hC
  · obtain ⟨h1, h2, _⟩ := hA
    subst h1 h2
    exact consistent_push hc (fun k c hk => (hc k c hk).1) (Or.inl ⟨rfl, rfl, rfl⟩)
      (fun k c _ p hp => by simp at hp)
  · exact absurd rfl hB.2.2.1
  · obtain ⟨h1, hw, hh, _, _, _, hsize, hframe⟩ := hC
    subst h1
    exact consistent_push_built hc hw hh hfit hsize hframe

theorem step_consistent [Inhabited α] {s s1 : World α} {op : Op α} (hc : s.Consistent)
    (hal : s.Allowed op) (hstep : s.step op = some s1) : s1.Consistent := by
  cases op with
  | create =>
    simp only [step] at hstep
    injection hstep with hstep
    subst hstep
    exact consistent_push hc (fun k c hk => (hc k c hk).1) (IntensityImage.valid_create _)
      (fun k c _ p hp => by simp [IntensityImage.create, IntensityImagePrivate.ctor] at hp)
  | create_value w h v =>
    simp only [step] at hstep
    split at hstep
    · rename_i m mem1 hcv
      injection hstep with hstep
      subst hstep
      simp only [IntensityImage.create_value] at hcv
      split at hcv
      · rename_i d1 mem2 hcopy
        injection hcv with hcv
        injection hcv with h1 h2
        subst h1 h2
        rcases IntensityImagePrivate.copy_value_cases hcopy with hA | hB | hC
        · obtain ⟨h1, h2, _⟩ := hA
          subst h1 h2
          exact consistent_push hc (fun k c hk => (hc k c hk).1) (Or.inl ⟨rfl, rfl, rfl⟩)
            (fun k c _ p hp => by simp at hp)
        · exact absurd rfl hB.2.2.1
        · obtain ⟨h1, hw, hh, _, _, hsize, hframe⟩ := hC
          subst h1
          exact consistent_push_built hc hw hh hal hsize hframe
      · simp at hcv
    · simp at hstep
  | create_data w h d =>
    simp only [step] at hstep
    split at hstep
    · rename_i m mem1 hcd
      injection hstep with hstep
      subst hstep
      simp only [IntensityImage.create_data] at hcd
      split at hcd
      · rename_i d1 mem2 hcopy
        injection hcd with hcd
        injection hcd with h1 h2
        subst h1 h2
        exact consistent_push_copy hc hal hcopy
      · simp at hcd
    · simp at hstep
  | create_adopt w h d =>
    simp only [step] at hstep
    injection hstep with hstep
    subst hstep
    by_cases hdeg : w = 0 ∨ h = 0 ∨ d = none
    · have hcreate : IntensityImage.create_adopt w h d = IntensityImage.create := by
        simp [IntensityImage.create_adopt, hdeg, IntensityImage.create]
      rw [hcreate]
      exact consistent_push hc (fun k c hk => (hc k c hk).1) (IntensityImage.valid_create _)
        (fun k c _ p hp => by simp [IntensityImage.create, IntensityImagePrivate.ctor] at hp)
    · have hw : w ≠ 0 := fun hc0 => hdeg (Or.inl hc0)
      have hh : h ≠ 0 := fun hc0 => hdeg (Or.inr (Or.inl hc0))
      have hd : d ≠ none := fun hc0 => hdeg (Or.inr (Or.inr hc0))
      have hadopt : IntensityImage.create_adopt w h d = IntensityImage.mk ⟨w, h, d⟩ := by
        simp [IntensityImage.create_adopt, hdeg]
      rw [hadopt]
      have hal2 : w * h < SIZE_MODULUS ∧ (s.mem.buffer d).map List.length = some (w * h) ∧
          ∀ m ∈ s.objects, m.d.data ≠ d := by
        rcases hal with h0 | h0 | h0 | h0
        · exact absurd h0 hw
        · exact absurd h0 hh
        · exact absurd h0 hd
        · exact h0
      refine consistent_push hc (fun k c hk => (hc k c hk).1)
        (Or.inr ⟨Nat.pos_of_ne_zero hw, Nat.pos_of_ne_zero hh, hal2.1, hal2.2.1⟩) ?_
      intro k c hk p hp hcp
      apply hal2.2.2 c (List.getElem?_mem hk)
      simp only at hp
      rw [hcp, hp]
  | create_copy j =>
    simp only [step] at hstep
    split at hstep
    · rename_i a ha
      split at hstep
      · rename_i m mem1 hcc
        injection hstep with hstep
        subst hstep
        simp only [IntensityImage.create_copy] at hcc
        split at hcc
        · rename_i d1 mem2 hcopy
          injection hcc with hcc
          injection hcc with h1 h2
          subst h1 h2
          have hav := (hc j a ha).1
          have hfit : a.width * a.height < SIZE_MODULUS := by
            rcases hav with ⟨_, hw0, _⟩ | ⟨_, _, hfit, _⟩
            · simp [IntensityImage.width, hw0]
            · exact hfit
          exact consistent_push_copy hc hfit hcopy
        · simp at hcc
      · simp at hstep
    · simp at hstep
  | create_move j =>
    simp only [step] at hstep
    split at hstep
    · rename_i a ha
      injection hstep with hstep
      subst hstep
      have hset : Consistent { objects := s.objects.set j IntensityImage.create, mem := s.mem } :=
        consistent_set hc ha (fun k c _ hk => (hc k c hk).1) (IntensityImage.valid_create _)
          (fun k c _ _ p hp => by
            simp [IntensityImage.create, IntensityImagePrivate.ctor] at hp)
      have hlt : j < s.objects.length := by
        by_contra hge
        rw [List.getElem?_eq_none (Nat.le_of_not_lt hge)] at ha
        cases ha
      refine consistent_push hset (fun k c hk => (hset k c hk).1) (hc j a ha).1 ?_
      intro k c hk p hp
      by_cases hkj : k = j
      · subst hkj
        rw [List.getElem?_set_self hlt] at hk
        injection hk with hk
        subst hk
        simp [IntensityImage.create_move, IntensityImage.swap, IntensityImagePrivate.ctor]
      · rw [List.getElem?_set_ne (Ne.symm hkj)] at hk
        exact (hc j a ha).2 k c hkj hk p hp
    · simp at hstep
  | assign_copy i j =>
    simp only [step] at hstep
    split at hstep
    · rename_i b a hb ha
      split at hstep
      · rename_i b1 mem1 hac
        injection hstep with hstep
        subst hstep
        simp only [IntensityImage.assign_copy] at hac
        split at hac
        · rename_i d1 mem2 hcopy
          injection hac with hac
          injection hac with h1 h2
          subst h1 h2
          have hav := (hc j a ha).1
          rcases IntensityImagePrivate.copy_data_cases hcopy with hA | hB | hC
          · obtain ⟨h1, h2, _⟩ := hA
            subst h1 h2
            exact consistent_set hc hb (fun k c _ hk => (hc k c hk).1) (Or.inl ⟨rfl, rfl, rfl⟩)
              (fun k c _ _ p hp => by simp at hp)
          · obtain ⟨h1, hsame, _⟩ := hB
            subst h1
            exact consistent_set hc hb (fun k c _ hk => (hc k c hk).1.of_sameSizes hsame)
              ((hc i b hb).1.of_sameSizes hsame)
              (fun k c hki hk p hp => (hc i b hb).2 k c hki hk p hp)
          · obtain ⟨h1, hw, hh, hd, _, _, hsize, hframe⟩ := hC
            subst h1
            have hfit : a.width * a.height < SIZE_MODULUS := by
              rcases hav with ⟨hd0, _, _⟩ | ⟨_, _, hfit, _⟩
              · exact absurd hd0 hd
              · exact hfit
            refine consistent_set hc hb ?_ (IntensityImage.valid_built hw hh hfit hsize) ?_
            · intro k c hki hk
              refine (hc k c hk).1.across_realloc ?_ hframe
              intro q hq hqb
              exact (hc k c hk).2 i b (Ne.symm hki) hb q hq hqb.symm
            · intro k c _ hk p hp hcp
              have hlt := (hc k c hk).1.ptr_lt hcp
              simp only [Option.some.injEq] at hp
              omega
        · simp at hac
      · simp at hstep
    · simp at hstep
  | assign_move i j =>
    simp only [step] at hstep
    split at hstep
    · rename_i b a hb ha
      injection hstep with hstep
      subst hstep
      exact consistent_exchange hc hb ha
    · simp at hstep
  | swap i j =>
    simp only [step] at hstep
    split at hstep
    · rename_i b a hb ha
      injection hstep with hstep
      subst hstep
      exact consistent_exchange hc hb ha
    · simp at hstep
  | setValueAt i row col v =>
    simp only [step] at hstep
    split at hstep
    · rename_i m hm
      have hset := IntensityImage.setValueAt_sameSizes m row col v s.mem
      split at hstep
      · rename_i r m1 mem1 heq
        injection hstep with hstep
        subst hstep
        rw [heq] at hset
        obtain ⟨h1, hsame⟩ := hset
        simp only at h1 hsame
        subst h1
        exact consistent_set hc hm (fun k c _ hk => (hc k c hk).1.of_sameSizes hsame)
          ((hc i _ hm).1.of_sameSizes hsame) (fun k c hki hk p hp => (hc i _ hm).2 k c hki hk p hp)
      · rename_i m1 mem1 heq
        injection hstep with hstep
        subst hstep
        rw [heq] at hset
        obtain ⟨h1, hsame⟩ := hset
        simp only at h1 hsame
        subst h1
        exact consistent_set hc hm (fun k c _ hk => (hc k c hk).1.of_sameSizes hsame)
          ((hc i _ hm).1.of_sameSizes hsame) (fun k c hki hk p hp => (hc i _ hm).2 k c hki hk p hp)
      · simp at hstep
    · simp at hstep

end World

end Core

/-! ## The representation invariant -/

namespace Core

namespace World

variable {α : Type}

theorem run_consistent [Inhabited α] :
    ∀ (ops : List (Op α)) (s s1 : World α), s.Consistent → s.AllAllowed ops →
      s.run ops = some s1 → s1.Consistent := by
  intro ops
  induction ops with
  | nil =>
    intro s s1 hc _ hrun
    simp only [run] at hrun
    injection hrun with hrun
    subst hrun
    exact hc
  | cons op ops ih =>
    intro s s1 hc hal hrun
    simp only [run] at hrun
    simp only [AllAllowed] at hal
    split at hrun
    · rename_i s2 hstep
      rw [hstep] at hal
      exact ih s2 s1 (step_consistent hc hal.1 hstep) hal.2 hrun
    · simp at hrun

theorem init_consistent (mem : Heap α) : (init mem).Consistent := by
  intro i m hm
  simp [init] at hm

end World

namespace IntensityImage

variable {α : Type}

/-- C16, as the claim states it, fails when `width * height` wraps to 0: after
`IntensityImage(2 ^ 32, 2 ^ 32, 0)` the program has an object with a live array of
0 elements, width and height `2 ^ 32`, and `elems() == 0` although `empty()` is
false. -/
theorem create_value_zero_elems :
    (World.init ([] : Heap ℚ)).run [Op.create_value (2 ^ 32) (2 ^ 32) 0]
      = some { objects := [IntensityImage.mk ⟨2 ^ 32, 2 ^ 32, some 0⟩], mem := [some []] } ∧
    (IntensityImage.mk ⟨2 ^ 32, 2 ^ 32, some 0⟩).empty = false ∧
    (IntensityImage.mk ⟨2 ^ 32, 2 ^ 32, some 0⟩).elems = 0 ∧
    (Heap.buffer ([some []] : Heap ℚ) (IntensityImage.mk ⟨2 ^ 32, 2 ^ 32, some 0⟩).data).map
      List.length = some 0 ∧
    (IntensityImage.mk ⟨2 ^ 32, 2 ^ 32, some 0⟩).width
      * (IntensityImage.mk ⟨2 ^ 32, 2 ^ 32, some 0⟩).height = 2 ^ 64 ∧
    ¬ ((IntensityImage.mk ⟨2 ^ 32, 2 ^ 32, some 0⟩).empty = true
      ↔ (IntensityImage.mk ⟨2 ^ 32, 2 ^ 32, some 0⟩).elems = 0) :=
  ⟨by rfl, by decide, by decide, by rfl, by decide, by decide⟩

/-- C16, amended (representation invariant): in every state a program reaches
from no objects by constructors, copy and move assignment, `swap` and
`setValueAt`, where the fill constructor and the constructor that copies data get
a width and a height whose product fits `size_t` and the adopting constructor gets
a live array of exactly `width * height` elements (a product that fits `size_t`)
that no object owns, every object has either an array of exactly
`width * height` elements with `width > 0` and `height > 0`, or width 0, height 0
and no array; hence `empty()` holds exactly when `elems() == 0`. -/
theorem representation_invariant [Inhabited α] (mem0 : Heap α) (ops : List (Op α))
    (s : World α) (hal : (World.init mem0).AllAllowed ops)
    (hrun : (World.init mem0).run ops = some s) :
    ∀ m ∈ s.objects,
      ((m.data ≠ none ∧ (s.mem.buffer m.data).map List.length = some (m.width * m.height) ∧
          0 < m.width ∧ 0 < m.height) ∨
        (m.width = 0 ∧ m.height = 0 ∧ m.data = none)) ∧
      (m.empty = true ↔ m.elems = 0) := by
  have hc := World.run_consistent ops _ s (World.init_consistent mem0) hal hrun
  intro m hm
  obtain ⟨i, hi⟩ := List.mem_iff_getElem?.mp hm
  have hv := (hc i m hi).1
  refine ⟨?_, hv.empty_iff⟩
  rcases hv with ⟨hd, hw, hh⟩ | ⟨hw, hh, _, hb⟩
  · exact Or.inr ⟨hw, hh, hd⟩
  · left
    refine ⟨?_, hb, hw, hh⟩
    intro hd
    simp only [data] at hd
    simp [hd, Heap.buffer] at hb

/-- C16, amended, for the sample program. -/
theorem representation_invariant_witness :
    (World.init sampleHeap).AllAllowed sampleProgram ∧
    (World.init sampleHeap).run sampleProgram = some sampleWorld ∧
    ∀ m ∈ sampleWorld.objects,
      ((m.data ≠ none ∧
          (sampleWorld.mem.buffer m.data).map List.length = some (m.width * m.height) ∧
          0 < m.width ∧ 0 < m.height) ∨
        (m.width = 0 ∧ m.height = 0 ∧ m.data = none)) ∧
      (m.empty = true ↔ m.elems = 0) :=
  ⟨by decide, by rfl,
    representation_invariant sampleHeap sampleProgram sampleWorld (by decide) (by rfl)⟩

/-! ## Objects whose `width * height` wraps -/

/-- C1, as the claim states it, fails on a matrix whose `width * height` wraps:
on the object `IntensityImage(2 ^ 63 + 1, 2, 7)` the in-range positions (0, 0) and
(0, `2 ^ 63`) are different, `setValueAt(0, 2 ^ 63, 5)` returns normally, and
`getValueAt(0, 0)` changes from 7 to 5. -/
theorem setValueAt_frame_overflow :
    create_value (2 ^ 63 + 1) 2 (7 : ℚ) [] = some (wrappedImage, wrappedHeap) ∧
    (0 < wrappedImage.height ∧ 0 < wrappedImage.width ∧ 2 ^ 63 < wrappedImage.width ∧
      ((0 : Nat), (0 : Nat)) ≠ (0, 2 ^ 63)) ∧
    wrappedImage.getValueAt 0 0 wrappedHeap = .ok 7 ∧
    wrappedImage.setValueAt 0 (2 ^ 63) 5 wrappedHeap = (.ok (), wrappedImage, [some [5, 7]]) ∧
    wrappedImage.getValueAt 0 0 [some [(5 : ℚ), 7]] = .ok 5 ∧
    (Except.ok 5 : Except Error ℚ) ≠ .ok 7 :=
  ⟨by rfl, ⟨by decide, by decide, by decide, by decide⟩, by rfl, by rfl, by rfl, by
    intro hc
    injection hc with hc
    norm_num at hc⟩

/-- C3, as the claim states it, fails on a matrix whose `width * height` wraps:
on the object `IntensityImage(2 ^ 63 + 1, 2, 7)` the in-range position
(0, `2 ^ 63`) has `row + col * height() = 2 ^ 64`, no offset of the 2-element
array, yet `getValueAt(0, 2 ^ 63)` returns element 0 (the `size_t` offset wraps to
0); and `setValueAt(0, 1, 5)` at the in-range position (0, 1) writes to offset 2,
outside the array. -/
theorem column_major_overflow :
    create_value (2 ^ 63 + 1) 2 (7 : ℚ) [] = some (wrappedImage, wrappedHeap) ∧
    wrappedHeap.buffer wrappedImage.data = some [7, 7] ∧
    (0 < wrappedImage.height ∧ 2 ^ 63 < wrappedImage.width ∧
      0 + 2 ^ 63 * wrappedImage.height = 2 ^ 64) ∧
    ([7, 7] : List ℚ)[0 + 2 ^ 63 * wrappedImage.height]? = none ∧
    wrappedImage.getValueAt 0 (2 ^ 63) wrappedHeap = .ok 7 ∧
    ([7, 7] : List ℚ)[0]? = some 7 ∧
    (1 < wrappedImage.width ∧ 0 + 1 * wrappedImage.height = 2) ∧
    (wrappedImage.setValueAt 0 1 5 wrappedHeap).1 = .error .undefined_behaviour :=
  ⟨by rfl, by rfl, ⟨by decide, by decide, by decide⟩, by rfl, by rfl, by rfl,
    ⟨by decide, by decide⟩, by rfl⟩

section WrappedSum

/-- C13, as the claim states it, fails on a matrix whose `width * height` wraps:
on the object `IntensityImage(2 ^ 63 + 1, 2, 7)`, `sum()` returns 14, the sum of
the 2 elements allocated, while `getValueAt` has no value at the in-range position
(0, 1), so there is no sum of `getValueAt` over all in-range positions. -/
theorem sum_positions_overflow :
    create_value (2 ^ 63 + 1) 2 (7 : ℚ) [] = some (wrappedImage, wrappedHeap) ∧
    wrappedImage.sum wrappedHeap = some 14 ∧
    (0 < wrappedImage.height ∧ 1 < wrappedImage.width) ∧
    wrappedImage.getValueAt 0 1 wrappedHeap = .error .undefined_behaviour ∧
    ¬ ∃ f : Nat → Nat → ℚ, ∀ row col, row < wrappedImage.height → col < wrappedImage.width →
      wrappedImage.getValueAt row col wrappedHeap = .ok (f row col) := by
  have hu : wrappedImage.getValueAt 0 1 wrappedHeap = .error .undefined_behaviour := by rfl
  refine ⟨by rfl, ?_, ⟨by decide, by decide⟩, hu, ?_⟩
  · have hn : (wrappedImage.d.width * wrappedImage.d.height) % SIZE_MODULUS = 2 := by decide
    simp only [sum, hn]
    simp [wrappedImage, wrappedHeap, sumLoop, Heap.read, Heap.buffer]
    norm_num
  · rintro ⟨f, hf⟩
    have h01 := hf 0 1 (by decide) (by decide)
    rw [hu] at h01
    cases h01

end WrappedSum

end IntensityImage

end Core
